import Mathlib

/-!
# Verification of the kernel-building core of `geant4_cherenkov`

Shallow embedding, in Lean 4, of the streaming analysis core of the
repository (the modules `analysis/build_dose_kernel.py`,
`analysis/build_cherenkov_kernel.py` and
`analysis/analyze_phsp_dose_correlation.py`), together with proofs of the
testable properties stated in the specification.

Modelling conventions:

* numpy `float32`/`float64` arithmetic is modelled by exact rational
  arithmetic (`ℚ`); "within floating tolerance" / "bit-identical" become
  exact equality in the model;
* `np.sqrt` (the only operation with no exact rational counterpart) is
  modelled relationally: the code functions that return a `sigma` array are
  embedded as predicates over `ℝ`-valued voxel maps using `Real.sqrt`,
  while everything under the square root stays computable over `ℚ`;
* a 3D numpy array indexed by voxel is modelled as a function
  `ℕ × ℕ × ℕ → ℚ`; a binary file is modelled as the list of its decoded
  records.
-/

namespace Geant4Cherenkov

/-- A voxel index `(i, j, k)` of the 3D grid. -/
abbrev Vox := ℕ × ℕ × ℕ

/-! ## Chunked reading

The Python readers consume the file in chunks of `chunk_size` records
(`f.read(chunk_size * BYTES_PER_RECORD)` in a `while` loop).  On the list of
decoded records this is exactly splitting the list into consecutive blocks
of `c` records (the last block possibly shorter).  For `c = 0` the Python
loop would not terminate; we return `[]` in that degenerate case, which no
claim exercises (all chunk sizes are positive). -/

/-- Split a list into consecutive chunks of `c` elements each (last chunk
possibly shorter).  Mirrors the `while True: raw = f.read(c * B)` loops. -/
def chunkList (c : ℕ) : List α → List (List α)
  | [] => []
  | a :: t =>
    if hc : c = 0 then []
    else (a :: t).take c :: chunkList c ((a :: t).drop c)
termination_by l => l.length
decreasing_by
  simp only [List.length_drop, List.length_cons]
  exact Nat.sub_lt (Nat.succ_pos _) (Nat.pos_of_ne_zero hc)


/-! ## Binning (the semantics of `np.histogramdd` with explicit bin edges)

For a single axis with edge array `edges` (length `n_bins + 1`), a value `v`
falls in bin `i` when `edges[i] ≤ v < edges[i+1]`; the final bin is closed
on both ends (a value equal to the last edge belongs to the last bin); a
value below the first edge or above the last edge is outside the histogram.
For an increasing edge array the bin index of an inside value is
`(number of edges ≤ v) - 1`, which is how `np.histogramdd` computes it
(via `searchsorted`). -/

/-- Bin index of `v` along one axis with the given edge array, `none` when
`v` is outside the axis range (or fewer than two edges). -/
def binIndex (edges : List ℚ) (v : ℚ) : Option ℕ :=
  match edges with
  | [] => none
  | [_] => none
  | e :: rest =>
    let lastE := (e :: rest).getLast (List.cons_ne_nil e rest)
    if v < e then none
    else if lastE < v then none
    else if v = lastE then some (edges.length - 2)
    else some ((e :: rest).countP (fun a => a ≤ v) - 1)

/-- The 3D bin index: the record is inside the histogram iff it is inside on
all three axes. -/
def binIndex3 (ex ey ez : List ℚ) (p : ℚ × ℚ × ℚ) : Option Vox :=
  match binIndex ex p.1, binIndex ey p.2.1, binIndex ez p.2.2 with
  | some i, some j, some k => some (i, j, k)
  | _, _, _ => none

/-- Weighted 3D histogram of a list of (position, weight) pairs:
`np.histogramdd(xyz, bins=(ex,ey,ez), weights=w)`, read per voxel. -/
def histW (ex ey ez : List ℚ) (pws : List ((ℚ × ℚ × ℚ) × ℚ)) (v : Vox) : ℚ :=
  (pws.map (fun pw => if binIndex3 ex ey ez pw.1 = some v then pw.2 else 0)).sum

/-- The set of voxels of the grid with the given edge arrays. -/
def gridFinset (ex ey ez : List ℚ) : Finset Vox :=
  Finset.range (ex.length - 1) ×ˢ (Finset.range (ey.length - 1) ×ˢ Finset.range (ez.length - 1))

/-- Sum of a voxel array over the whole grid (`np.sum(arr)`). -/
def sumVoxels (ex ey ez : List ℚ) (H : Vox → ℚ) : ℚ :=
  ∑ v ∈ gridFinset ex ey ez, H v


/-! ## Records

One decoded record of the 36-byte `.dose` format (`DOSE_DTYPE`), and one
decoded record of the 60-byte `.phsp` v2 format (`PHSP_DTYPE`).  Field
values are modelled over `ℚ`; of the twelve float fields of a phsp record
only the three used by the analysis core (`initX`, `initY`, `initZ`) are
kept, the others never being read by the functions under verification. -/

/-- One record of the `.dose` file: position, position relative to the
primary vertex, deposited energy, event identifier, PDG particle code. -/
structure DoseRec where
  x : ℚ
  y : ℚ
  z : ℚ
  dx : ℚ
  dy : ℚ
  dz : ℚ
  energy : ℚ
  eventId : ℕ
  pdg : ℤ
deriving DecidableEq, Repr

/-- One record of the `.phsp` v2 file (fields used by the core:
production point and event identifier). -/
structure PhspRec where
  initX : ℚ
  initY : ℚ
  initZ : ℚ
  eventId : ℕ
deriving DecidableEq, Repr

/-- The coordinate triple a dose record is binned by: `("x","y","z")` when
`use_xyz`, else `("dx","dy","dz")` (the `cols` switch). -/
def dosePos (useXyz : Bool) (r : DoseRec) : ℚ × ℚ × ℚ :=
  if useXyz then (r.x, r.y, r.z) else (r.dx, r.dy, r.dz)

/-! ## Accumulator (fast path)

`build_dose_histogram_chunked` (build_dose_kernel.py, lines 259-295):
chunked read; weight by `energy` and `energy**2`; accumulate `sum_w` and
`sum_w2`; tally the running total energy; afterwards
`energy_in_grid = np.sum(sum_w)` and
`energy_outside = total_energy_all - energy_in_grid`.

`build_histogram_chunked` (build_cherenkov_kernel.py, lines 247-278):
chunked read; unweighted counts of `(initX, initY, initZ)`. -/

/-- Running accumulation state of the dose histogram pass. -/
structure DoseAcc where
  sum_w : Vox → ℚ
  sum_w2 : Vox → ℚ
  total_energy_all : ℚ
  total_read : ℕ

/-- Result of `build_dose_histogram_chunked`. -/
structure DoseHist where
  sum_w : Vox → ℚ
  sum_w2 : Vox → ℚ
  energy_in_grid : ℚ
  energy_outside : ℚ
  total_read : ℕ

/-- Processing of one chunk of the dose pass: `sum_w += H1; sum_w2 += H2;
total_read += n_read; total_energy_all += np.sum(w)`. -/
def doseChunkStep (ex ey ez : List ℚ) (useXyz : Bool) (acc : DoseAcc)
    (ch : List DoseRec) : DoseAcc :=
  { sum_w := fun v =>
      acc.sum_w v + histW ex ey ez (ch.map (fun r => (dosePos useXyz r, r.energy))) v
    sum_w2 := fun v =>
      acc.sum_w2 v + histW ex ey ez (ch.map (fun r => (dosePos useXyz r, r.energy * r.energy))) v
    total_energy_all := acc.total_energy_all + (ch.map (fun r => r.energy)).sum
    total_read := acc.total_read + ch.length }

/-- Source: `build_dose_histogram_chunked(dose_path, edges, chunk_size, use_xyz)`
on the decoded record list of the file. -/
def build_dose_histogram_chunked (ex ey ez : List ℚ) (c : ℕ) (useXyz : Bool)
    (recs : List DoseRec) : DoseHist :=
  let acc := (chunkList c recs).foldl (doseChunkStep ex ey ez useXyz)
    { sum_w := fun _ => 0, sum_w2 := fun _ => 0, total_energy_all := 0, total_read := 0 }
  let in_grid := sumVoxels ex ey ez acc.sum_w
  { sum_w := acc.sum_w
    sum_w2 := acc.sum_w2
    energy_in_grid := in_grid
    energy_outside := acc.total_energy_all - in_grid
    total_read := acc.total_read }

/-- Result of the Cherenkov counts pass. -/
structure PhspHist where
  counts : Vox → ℚ
  total_read : ℕ

/-- Source: `build_histogram_chunked(phsp_path, edges, chunk_size)` on the decoded
record list of the file (unweighted `np.histogramdd`). -/
def build_histogram_chunked (ex ey ez : List ℚ) (c : ℕ)
    (recs : List PhspRec) : PhspHist :=
  (chunkList c recs).foldl
    (fun acc ch =>
      { counts := fun v =>
          acc.counts v +
            histW ex ey ez (ch.map (fun r => ((r.initX, r.initY, r.initZ), 1))) v
        total_read := acc.total_read + ch.length })
    { counts := fun _ => 0, total_read := 0 }

/-! ## KernelNormalizer (fast mode)

`compute_kernel_fast(sum_w, sum_w2, n_primaries)` (build_dose_kernel.py,
lines 298-302) and `compute_kernel_and_uncertainty(counts, n_primaries)`
(build_cherenkov_kernel.py, lines 281-285).  Because `np.sqrt` has no exact
rational counterpart, these two-line functions are embedded relationally:
the predicate holds of exactly the `(K, sigma)` pair the code returns, the
`sigma` array living over `ℝ`. -/

/-- Source: `K = sum_w / n_primaries;
sigma = np.sqrt(np.maximum(sum_w2, 0.0)) / n_primaries`. -/
def compute_kernel_fast (sum_w sum_w2 : Vox → ℚ) (n : ℕ)
    (K : Vox → ℚ) (sigma : Vox → ℝ) : Prop :=
  (∀ v, K v = sum_w v / (n : ℚ)) ∧
  (∀ v, sigma v = Real.sqrt ((max (sum_w2 v) 0 : ℚ) : ℝ) / (n : ℝ))

/-- Source: `K = counts / n_primaries;
sigma = np.sqrt(np.maximum(counts, 0.0)) / n_primaries`. -/
def compute_kernel_and_uncertainty (counts : Vox → ℚ) (n : ℕ)
    (K : Vox → ℚ) (sigma : Vox → ℝ) : Prop :=
  (∀ v, K v = counts v / (n : ℚ)) ∧
  (∀ v, sigma v = Real.sqrt ((max (counts v) 0 : ℚ) : ℝ) / (n : ℝ))

/-! ## UncertaintyEstimator (event-level mode)

`build_event_level_uncertainty` (build_dose_kernel.py, lines 305-368):
chunked read; a per-record loop keeps the current event identifier and the
buffered records of the current event; on an identifier change the buffered
event is flushed into a per-voxel Welford aggregate
(`n_ev`, `mean_e`, `M2_e`); after the last chunk the pending event is
flushed; then `variance = M2 / (n-1)` when `n > 1` else `0`, and
`sigma = sqrt(variance) / sqrt(n)` when `n > 0` else `0`. -/

/-- Per-voxel Welford aggregate: scalar sample count `n`, per-voxel running
`mean` and `M2`. -/
@[ext]
structure WelfordState where
  n : ℕ
  mean : Vox → ℚ
  M2 : Vox → ℚ

/-- The Welford update of the aggregate with one event histogram `H`:
`n += 1; delta = H - mean; mean += delta / n; M2 += delta * (H - mean)`
(element-wise, `mean` already updated in the `M2` line). -/
def welfordStep (w : WelfordState) (H : Vox → ℚ) : WelfordState :=
  let n' : ℕ := w.n + 1
  let delta : Vox → ℚ := fun v => H v - w.mean v
  let mean' : Vox → ℚ := fun v => w.mean v + delta v / (n' : ℚ)
  { n := n'
    mean := mean'
    M2 := fun v => w.M2 v + delta v * (H v - mean' v) }

/-- The voxel histogram `H_event` of one event's records
(`np.histogramdd(xyz, bins=bins, weights=w)` inside `flush_event`). -/
def eventHist (ex ey ez : List ℚ) (useXyz : Bool) (g : List DoseRec) : Vox → ℚ :=
  histW ex ey ez (g.map (fun r => (dosePos useXyz r, r.energy)))

/-- Source: `flush_event`: skip an empty buffer, otherwise histogram the buffered
event records and fold the histogram into the Welford aggregate. -/
def flushEvent (ex ey ez : List ℚ) (useXyz : Bool) (w : WelfordState)
    (buf : List DoseRec) : WelfordState :=
  if buf = [] then w
  else welfordStep w (eventHist ex ey ez useXyz buf)

/-- The fresh Welford aggregate
(`n_ev = 0; mean_e = zeros; M2_e = zeros`). -/
def welfordInit : WelfordState :=
  { n := 0, mean := fun _ => 0, M2 := fun _ => 0 }

/-- The event identifier of a group of records (of its first record). -/
def groupEid (g : List DoseRec) : ℕ :=
  match g with
  | [] => 0
  | r :: _ => r.eventId

/-- Loop state of the event-level pass: current event identifier
(`None` before the first record), buffered records of the current event,
and the Welford aggregate. -/
@[ext]
structure EvState where
  cur : Option ℕ
  buf : List DoseRec
  w : WelfordState

/-- Processing of one record of the event-level pass: flush on an event
identifier change, then append the record to the buffer of its event. -/
def evStep (ex ey ez : List ℚ) (useXyz : Bool) (s : EvState) (r : DoseRec) : EvState :=
  match s.cur with
  | none => { cur := some r.eventId, buf := s.buf ++ [r], w := s.w }
  | some e =>
    if r.eventId ≠ e then
      { cur := some r.eventId, buf := [r], w := flushEvent ex ey ez useXyz s.w s.buf }
    else
      { cur := some e, buf := s.buf ++ [r], w := s.w }

/-- End-of-file flush: `if current_event_id is not None: flush_event(...)`. -/
def evFinalize (ex ey ez : List ℚ) (useXyz : Bool) (s : EvState) : WelfordState :=
  match s.cur with
  | none => s.w
  | some _ => flushEvent ex ey ez useXyz s.w s.buf

/-- The Welford aggregate produced by
`build_event_level_uncertainty(dose_path, edges, chunk_size, use_xyz, ...)`
(the chunked read feeds the same per-record loop, the buffer surviving
chunk boundaries); `n_events_used` is its `n`. -/
def build_event_level_uncertainty (ex ey ez : List ℚ) (c : ℕ) (useXyz : Bool)
    (recs : List DoseRec) : WelfordState :=
  evFinalize ex ey ez useXyz
    ((chunkList c recs).foldl (fun s ch => ch.foldl (evStep ex ey ez useXyz) s)
      { cur := none, buf := [], w := welfordInit })

/-- Source: `variance = np.where(n_ev > 1, M2_e / (n_ev - 1), 0.0)`. -/
def eventVariance (w : WelfordState) (v : Vox) : ℚ :=
  if 1 < w.n then w.M2 v / ((w.n : ℚ) - 1) else 0

/-- The returned event-level uncertainty:
`std_e = sqrt(max(variance, 0)); sigma_K = np.where(n_ev > 0, std_e / sqrt(n_ev), 0.0)`
(relational embedding over `ℝ`). -/
def eventSigma (w : WelfordState) (sigma : Vox → ℝ) : Prop :=
  ∀ v, sigma v =
    if 0 < w.n then
      Real.sqrt ((max (eventVariance w v) 0 : ℚ) : ℝ) / Real.sqrt (w.n : ℝ)
    else 0

/-! ## GridSpec

`get_voxel_edges(bounds)` — identical in build_dose_kernel.py (lines
128-143) and build_cherenkov_kernel.py (lines 127-146), with the shared
constants `TARGET_BINS_LARGEST_DIM = 100`, `VOXEL_SIZE_MIN_CM = 0.3`,
`VOXEL_SIZE_MAX_CM = 0.8`. -/

/-- Source: `np.clip(q, lo, hi)`. -/
def npClip (q lo hi : ℚ) : ℚ := min (max q lo) hi

/-- Python's builtin `round` on a float: round half to even. -/
def roundHalfEven (q : ℚ) : ℤ :=
  let f := ⌊q⌋
  let r := q - (f : ℚ)
  if r < 1 / 2 then f
  else if 1 / 2 < r then f + 1
  else if 2 ∣ f then f else f + 1

/-- Source: `np.linspace(a, b, nBins + 1)`: `nBins + 1` evenly spaced points from
`a` to `b`, both endpoints included (and, in exact arithmetic as in numpy's
implementation, attained exactly). -/
def linspace (a b : ℚ) (nBins : ℕ) : List ℚ :=
  (List.range (nBins + 1)).map (fun i : ℕ => a + (b - a) * (i : ℚ) / (nBins : ℚ))

/-- Geometry bounds `(x_min, x_max, y_min, y_max, z_min, z_max)`. -/
structure Bounds where
  x_min : ℚ
  x_max : ℚ
  y_min : ℚ
  y_max : ℚ
  z_min : ℚ
  z_max : ℚ

/-- Per-axis bin count: `max(1, int(round(extent / dv)))`. -/
def axisBins (extent dv : ℚ) : ℕ := (max 1 (roundHalfEven (extent / dv))).toNat

/-- Source: `get_voxel_edges(bounds)`: nominal voxel size
`dv = clip(L_max / 100, 0.3, 0.8)`, per-axis bin counts, and the three
`np.linspace` edge arrays.  Returns `((x_edges, y_edges, z_edges), dv)`. -/
def get_voxel_edges (b : Bounds) : (List ℚ × List ℚ × List ℚ) × ℚ :=
  let sx := b.x_max - b.x_min
  let sy := b.y_max - b.y_min
  let sz := b.z_max - b.z_min
  let L_max := max sx (max sy sz)
  let dv := npClip (L_max / 100) (3 / 10) (8 / 10)
  let n_x := axisBins sx dv
  let n_y := axisBins sy dv
  let n_z := axisBins sz dv
  ((linspace b.x_min b.x_max n_x, linspace b.y_min b.y_max n_y,
    linspace b.z_min b.z_max n_z), dv)

/-! ## RecordStream length validation

`get_n_photons(phsp_path, run_meta)` (build_cherenkov_kernel.py, lines
184-202) together with `_validate_header_if_present` (lines 149-181), and
the size check of `scan_dose_bounds_chunked` (build_dose_kernel.py, lines
211-214).  The filesystem inputs are modelled by their parsed content:
`fileSize` is the byte length, `hv`/`hb` are the `format_version` and
`bytes_per_photon` values parsed from the sidecar header when present, and
`runMetaTotal` is `run_meta["total_photons"]` when present.  A raised
`ValueError` is modelled as `Except.error` with the reason. -/

/-- Source: `_validate_header_if_present`: only `format_version` 2 with 60 bytes
per photon is accepted when a header declares those fields. -/
def validate_header (hv hb : Option ℤ) : Except String Unit := do
  match hv with
  | some fv => if fv ≠ 2 then throw "format_version is not v2" else pure ()
  | none => pure ()
  match hb with
  | some bp => if bp ≠ 60 then throw "bytes_per_photon is not 60" else pure ()
  | none => pure ()

/-- Source: `get_n_photons`: validate `file_size % 60 == 0`, validate the header if
present, and cross-check `run_meta["total_photons"]` if present; return the
record count `file_size // 60`. -/
def get_n_photons (fileSize : ℕ) (hv hb : Option ℤ) (runMetaTotal : Option ℤ) :
    Except String ℕ := do
  if fileSize % 60 ≠ 0 then
    throw "PHSP file size is not divisible by 60"
  match validate_header hv hb with
  | .error e => throw e
  | .ok _ => pure ()
  let fromFile := fileSize / 60
  match runMetaTotal with
  | some t => if t ≠ (fromFile : ℤ) then throw "run_meta total_photons mismatch" else pure fromFile
  | none => pure fromFile

/-- The dose-side length validation of `scan_dose_bounds_chunked`:
`file_size % 36 != 0` is fatal; `n_total = file_size // 36`. -/
def scan_dose_size_check (fileSize : ℕ) : Except String ℕ :=
  if fileSize % 36 ≠ 0 then .error "Dose file size is not divisible by 36"
  else .ok (fileSize / 36)

/-! ## EventIndexMapper (analyze_phsp_dose_correlation.py)

STEP 2 (lines 216-241) and STEP 6 (lines 388-401) of `main`: per-event
aggregation of the photon and dose streams on one shared event index.
`np.union1d`, `np.searchsorted` (side `left`) and `np.bincount` are
embedded by their defining semantics: the sorted list of distinct values,
the number of strictly smaller entries of a sorted array, and the
per-index tally of length `max(minlength, max(indices) + 1)`. -/

/-- Source: `np.union1d(np.unique(xs), np.unique(ys))`: the sorted list of the
distinct values of `xs ++ ys`. -/
def union1d (xs ys : List ℕ) : List ℕ := ((xs ++ ys).toFinset).sort (· ≤ ·)

/-- Source: `np.searchsorted(l, v)` (side `left`) on a sorted array `l`: the
insertion index of `v`, i.e. the number of entries `< v` (which is what the
binary search returns on a sorted array). -/
def searchsorted (l : List ℕ) (v : ℕ) : ℕ := l.countP (fun a => a < v)

/-- Length of `np.bincount(idxs, minlength=m)`:
`max(m, max(idxs) + 1)` (`m` when `idxs` is empty). -/
def bincountLen (idxs : List ℕ) (m : ℕ) : ℕ :=
  max m (idxs.foldr (fun i acc => max (i + 1) acc) 0)

/-- Source: `np.bincount(idxs, minlength=m)` (unweighted): entry `i` counts the
occurrences of `i` in `idxs`. -/
def bincountCount (idxs : List ℕ) (m : ℕ) : List ℕ :=
  (List.range (bincountLen idxs m)).map (fun i => idxs.count i)

/-- Source: `np.bincount(idxs, weights=ws, minlength=m)`: entry `i` sums the
weights at positions where the index equals `i`. -/
def bincountW (idxs : List ℕ) (ws : List ℚ) (m : ℕ) : List ℚ :=
  (List.range (bincountLen idxs m)).map
    (fun i => ((idxs.zip ws).map (fun p => if p.1 = i then p.2 else 0)).sum)

/-- Source: `max_event_id = max(int(phsp["event_id"].max()), int(dose["event_id"].max()))`. -/
def maxEventId (ph : List PhspRec) (ds : List DoseRec) : ℕ :=
  max ((ph.map PhspRec.eventId).foldr max 0) ((ds.map DoseRec.eventId).foldr max 0)

/-- Source: `SPARSE_THRESHOLD = 10`;
`use_sparse = max_event_id > SPARSE_THRESHOLD * total_records`. -/
def useSparse (ph : List PhspRec) (ds : List DoseRec) : Bool :=
  decide (maxEventId ph ds > 10 * (ph.length + ds.length))

/-- The three aligned per-event arrays of `main`
(`photons_per_event`, `dose_per_event`, `electron_dose_per_event`),
computed by the sparse or the dense branch as in STEP 2 and STEP 6. -/
def perEventArrays (ph : List PhspRec) (ds : List DoseRec) :
    List ℕ × List ℚ × List ℚ :=
  let phIds := ph.map PhspRec.eventId
  let dsIds := ds.map DoseRec.eventId
  let dsW := ds.map DoseRec.energy
  let dsElec := ds.filter (fun r => r.pdg = 11)
  if useSparse ph ds then
    let allIds := union1d phIds dsIds
    let phIdx := phIds.map (searchsorted allIds)
    let dsIdx := dsIds.map (searchsorted allIds)
    let nActual := allIds.length
    (bincountCount phIdx nActual,
     bincountW dsIdx dsW nActual,
     bincountW (dsElec.map (fun r => searchsorted allIds r.eventId))
       (dsElec.map DoseRec.energy) nActual)
  else
    let nEvents := maxEventId ph ds + 1
    (bincountCount phIds nEvents,
     bincountW dsIds dsW nEvents,
     bincountW (dsElec.map DoseRec.eventId) (dsElec.map DoseRec.energy) nEvents)

/-- Mapping the dose records of a chunk to their weighted points. -/
def dosePW1 (useXyz : Bool) (recs : List DoseRec) : List ((ℚ × ℚ × ℚ) × ℚ) :=
  recs.map (fun r => (dosePos useXyz r, r.energy))

/-- Mapping the dose records of a chunk to their squared-weight points. -/
def dosePW2 (useXyz : Bool) (recs : List DoseRec) : List ((ℚ × ℚ × ℚ) × ℚ) :=
  recs.map (fun r => (dosePos useXyz r, r.energy * r.energy))

/-- Fully degenerate bounds (all six bounds zero): allowed by
`min ≤ max`, every axis has extent `0`. -/
def b0 : Bounds := ⟨0, 0, 0, 0, 0, 0⟩

/-- Index `i` of the per-event arrays refers to this event identifier:
the `i`-th distinct identifier of the sorted union in sparse mode, the
identifier `i` itself in dense mode. -/
def alignedEid (ph : List PhspRec) (ds : List DoseRec) (i : ℕ) : ℕ :=
  if useSparse ph ds then
    (union1d (ph.map PhspRec.eventId) (ds.map DoseRec.eventId)).getD i 0
  else i

theorem chunkList_nil (c : ℕ) : chunkList c ([] : List α) = [] := by
  rw [chunkList]

theorem chunkList_cons (c : ℕ) (hc : c ≠ 0) (a : α) (t : List α) :
    chunkList c (a :: t) = (a :: t).take c :: chunkList c ((a :: t).drop c) := by
  rw [chunkList]; simp [hc]

/-- Joining the chunks gives back the original list (for positive chunk
size). -/
theorem chunkList_join (c : ℕ) (hc : 0 < c) (l : List α) :
    (chunkList c l).flatten = l := by
  have H : ∀ n (l : List α), l.length = n → (chunkList c l).flatten = l := by
    intro n
    induction n using Nat.strong_induction_on with
    | _ n ih =>
      intro l hn
      match l with
      | [] => simp [chunkList_nil]
      | a :: t =>
        rw [chunkList_cons c (Nat.pos_iff_ne_zero.mp hc) a t]
        have hlen : ((a :: t).drop c).length < n := by
          subst hn
          simp only [List.length_drop, List.length_cons]
          exact Nat.sub_lt (Nat.succ_pos _) hc
        rw [List.flatten_cons, ih _ hlen _ rfl, List.take_append_drop]
  exact H _ l rfl

theorem histW_append (ex ey ez : List ℚ) (a b : List ((ℚ × ℚ × ℚ) × ℚ)) (v : Vox) :
    histW ex ey ez (a ++ b) v = histW ex ey ez a v + histW ex ey ez b v := by
  simp [histW]

/-! ## Supporting lemmas: binning and accumulation -/

/-- A one-axis bin index is always a valid bin (`< n_bins`). -/
theorem binIndex_lt_nbins {edges : List ℚ} {v : ℚ} {i : ℕ}
    (h : binIndex edges v = some i) : i < edges.length - 1 := by
  match edges with
  | [] => simp [binIndex] at h
  | [e] => simp [binIndex] at h
  | e :: f :: t =>
    simp only [binIndex] at h
    split_ifs at h with h1 h2 h3
    · -- `v = lastE` branch: `i = length - 2`
      simp only [Option.some.injEq] at h
      simp only [List.length_cons] at h ⊢
      omega
    · -- interior branch: `i = countP (≤ v) - 1 < length - 1`
      simp only [Option.some.injEq] at h
      have hcnt : (e :: f :: t).countP (fun a => decide (a ≤ v)) < (e :: f :: t).length := by
        have hne : ¬ ((e :: f :: t).countP (fun a => decide (a ≤ v)) = (e :: f :: t).length) := by
          rw [List.countP_eq_length]
          intro hall
          have hlast := hall ((e :: f :: t).getLast (List.cons_ne_nil e (f :: t)))
            (List.getLast_mem _)
          have : ¬ ((e :: f :: t).getLast (List.cons_ne_nil e (f :: t)) ≤ v) := by
            push_neg
            rcases lt_trichotomy ((e :: f :: t).getLast (List.cons_ne_nil e (f :: t))) v with hlt | heq | hgt
            · exact absurd hlt h2
            · exact absurd heq.symm h3
            · exact hgt
          simp only [decide_eq_true_eq] at hlast
          exact this hlast
        exact lt_of_le_of_ne (List.countP_le_length _) hne
      replace h : (e :: f :: t).countP (fun a => decide (a ≤ v)) - 1 = i := by
        simpa using h
      simp only [List.length_cons] at hcnt ⊢
      omega

/-- A 3D bin index is always a voxel of the grid. -/
theorem binIndex3_mem_grid {ex ey ez : List ℚ} {p : ℚ × ℚ × ℚ} {v : Vox}
    (h : binIndex3 ex ey ez p = some v) : v ∈ gridFinset ex ey ez := by
  unfold binIndex3 at h
  rcases hx : binIndex ex p.1 with _ | i <;> rcases hy : binIndex ey p.2.1 with _ | j <;>
    rcases hz : binIndex ez p.2.2 with _ | k <;> simp [hx, hy, hz] at h
  subst h
  simp only [gridFinset, Finset.mem_product, Finset.mem_range]
  exact ⟨binIndex_lt_nbins hx, binIndex_lt_nbins hy, binIndex_lt_nbins hz⟩

/-- Summed over the whole grid, the one-voxel indicator of a record
recovers its weight exactly when the record is inside the grid. -/
theorem sum_grid_indicator (ex ey ez : List ℚ) (p : ℚ × ℚ × ℚ) (w : ℚ) :
    (∑ v ∈ gridFinset ex ey ez, if binIndex3 ex ey ez p = some v then w else 0) =
      if (binIndex3 ex ey ez p).isSome then w else 0 := by
  rcases h : binIndex3 ex ey ez p with _ | v0
  · simp
  · have hmem := binIndex3_mem_grid h
    simp only [Option.isSome_some, if_true, Option.some.injEq]
    rw [Finset.sum_ite_eq (gridFinset ex ey ez) v0 (fun _ => w), if_pos hmem]

theorem map_sum_add {l : List α} (f g : α → ℚ) :
    (l.map f).sum + (l.map g).sum = (l.map (fun x => f x + g x)).sum := by
  induction l with
  | nil => simp
  | cons a t ih => simp only [List.map_cons, List.sum_cons]; rw [← ih]; ring

/-- The grid total of a weighted histogram is the total weight of the
in-grid records. -/
theorem sumVoxels_histW (ex ey ez : List ℚ) (pws : List ((ℚ × ℚ × ℚ) × ℚ)) :
    sumVoxels ex ey ez (histW ex ey ez pws) =
      (pws.map (fun pw => if (binIndex3 ex ey ez pw.1).isSome then pw.2 else 0)).sum := by
  induction pws with
  | nil => simp [sumVoxels, histW]
  | cons pw t ih =>
    simp only [sumVoxels, histW, List.map_cons, List.sum_cons] at ih ⊢
    rw [Finset.sum_add_distrib, ih, sum_grid_indicator]

/-- A histogram of nonnegative weights is nonnegative in every voxel. -/
theorem histW_nonneg (ex ey ez : List ℚ) (pws : List ((ℚ × ℚ × ℚ) × ℚ))
    (hw : ∀ pw ∈ pws, 0 ≤ pw.2) (v : Vox) : 0 ≤ histW ex ey ez pws v := by
  apply List.sum_nonneg
  intro q hq
  simp only [List.mem_map] at hq
  obtain ⟨pw, hpw, rfl⟩ := hq
  split_ifs
  · exact hw pw hpw
  · exact le_refl 0

/-! ## Supporting lemmas: the chunked passes reduce to one pass over the
record list -/


theorem doseChunks_foldl (ex ey ez : List ℚ) (useXyz : Bool)
    (chunks : List (List DoseRec)) (acc : DoseAcc) :
    (∀ v, (chunks.foldl (doseChunkStep ex ey ez useXyz) acc).sum_w v =
        acc.sum_w v + histW ex ey ez (dosePW1 useXyz chunks.flatten) v) ∧
    (∀ v, (chunks.foldl (doseChunkStep ex ey ez useXyz) acc).sum_w2 v =
        acc.sum_w2 v + histW ex ey ez (dosePW2 useXyz chunks.flatten) v) ∧
    (chunks.foldl (doseChunkStep ex ey ez useXyz) acc).total_energy_all =
        acc.total_energy_all + (chunks.flatten.map (fun r => r.energy)).sum ∧
    (chunks.foldl (doseChunkStep ex ey ez useXyz) acc).total_read =
        acc.total_read + chunks.flatten.length := by
  induction chunks generalizing acc with
  | nil => simp [dosePW1, dosePW2, histW]
  | cons ch t ih =>
    obtain ⟨ih1, ih2, ih3, ih4⟩ := ih (doseChunkStep ex ey ez useXyz acc ch)
    refine ⟨fun v => ?_, fun v => ?_, ?_, ?_⟩
    · rw [List.foldl_cons, ih1]
      simp [doseChunkStep, dosePW1, histW_append, add_assoc]
    · rw [List.foldl_cons, ih2]
      simp [doseChunkStep, dosePW2, histW_append, add_assoc]
    · rw [List.foldl_cons, ih3]
      simp [doseChunkStep, add_assoc]
    · rw [List.foldl_cons, ih4]
      simp [doseChunkStep, add_assoc]

/-- For a positive chunk size, the dose accumulation pass equals the
one-shot histogram of the whole record list. -/
theorem build_dose_histogram_chunked_eq (ex ey ez : List ℚ) (useXyz : Bool)
    (c : ℕ) (hc : 0 < c) (recs : List DoseRec) :
    (∀ v, (build_dose_histogram_chunked ex ey ez c useXyz recs).sum_w v =
        histW ex ey ez (dosePW1 useXyz recs) v) ∧
    (∀ v, (build_dose_histogram_chunked ex ey ez c useXyz recs).sum_w2 v =
        histW ex ey ez (dosePW2 useXyz recs) v) ∧
    (build_dose_histogram_chunked ex ey ez c useXyz recs).total_read = recs.length := by
  obtain ⟨h1, h2, _h3, h4⟩ :=
    doseChunks_foldl ex ey ez useXyz (chunkList c recs)
      { sum_w := fun _ => 0, sum_w2 := fun _ => 0, total_energy_all := 0, total_read := 0 }
  rw [chunkList_join c hc recs] at h1 h2 h4
  refine ⟨fun v => ?_, fun v => ?_, ?_⟩
  · rw [show (build_dose_histogram_chunked ex ey ez c useXyz recs).sum_w =
        ((chunkList c recs).foldl (doseChunkStep ex ey ez useXyz)
          { sum_w := fun _ => 0, sum_w2 := fun _ => 0,
            total_energy_all := 0, total_read := 0 }).sum_w from rfl, h1]
    simp
  · rw [show (build_dose_histogram_chunked ex ey ez c useXyz recs).sum_w2 =
        ((chunkList c recs).foldl (doseChunkStep ex ey ez useXyz)
          { sum_w := fun _ => 0, sum_w2 := fun _ => 0,
            total_energy_all := 0, total_read := 0 }).sum_w2 from rfl, h2]
    simp
  · rw [show (build_dose_histogram_chunked ex ey ez c useXyz recs).total_read =
        ((chunkList c recs).foldl (doseChunkStep ex ey ez useXyz)
          { sum_w := fun _ => 0, sum_w2 := fun _ => 0,
            total_energy_all := 0, total_read := 0 }).total_read from rfl, h4]
    simp

/-- Total energy tallied by the dose pass is the total energy of the list
(for a positive chunk size). -/
theorem build_dose_total_energy (ex ey ez : List ℚ) (useXyz : Bool)
    (c : ℕ) (hc : 0 < c) (recs : List DoseRec) :
    (build_dose_histogram_chunked ex ey ez c useXyz recs).energy_outside =
      (recs.map (fun r => r.energy)).sum -
        (build_dose_histogram_chunked ex ey ez c useXyz recs).energy_in_grid := by
  obtain ⟨_h1, _h2, h3, _h4⟩ :=
    doseChunks_foldl ex ey ez useXyz (chunkList c recs)
      { sum_w := fun _ => 0, sum_w2 := fun _ => 0, total_energy_all := 0, total_read := 0 }
  rw [chunkList_join c hc recs] at h3
  show ((chunkList c recs).foldl (doseChunkStep ex ey ez useXyz) _).total_energy_all - _ = _
  rw [h3]
  simp [build_dose_histogram_chunked]

theorem phspChunks_foldl (ex ey ez : List ℚ) (chunks : List (List PhspRec))
    (acc : PhspHist) :
    (∀ v, (chunks.foldl (fun acc ch =>
        { counts := fun v =>
            acc.counts v + histW ex ey ez (ch.map (fun r => ((r.initX, r.initY, r.initZ), 1))) v
          total_read := acc.total_read + ch.length }) acc).counts v =
      acc.counts v +
        histW ex ey ez (chunks.flatten.map (fun r => ((r.initX, r.initY, r.initZ), (1 : ℚ)))) v) ∧
    (chunks.foldl (fun acc ch =>
        { counts := fun v =>
            acc.counts v + histW ex ey ez (ch.map (fun r => ((r.initX, r.initY, r.initZ), 1))) v
          total_read := acc.total_read + ch.length }) acc).total_read =
      acc.total_read + chunks.flatten.length := by
  induction chunks generalizing acc with
  | nil => simp [histW]
  | cons ch t ih =>
    obtain ⟨ih1, ih2⟩ := ih
      { counts := fun v =>
          acc.counts v + histW ex ey ez (ch.map (fun r => ((r.initX, r.initY, r.initZ), 1))) v
        total_read := acc.total_read + ch.length }
    refine ⟨fun v => ?_, ?_⟩
    · rw [List.foldl_cons, ih1]
      simp [histW_append, add_assoc]
    · rw [List.foldl_cons, ih2]
      simp [add_assoc]

/-- For a positive chunk size, the Cherenkov counts pass equals the one-shot
unweighted histogram of the whole record list. -/
theorem build_histogram_chunked_eq (ex ey ez : List ℚ) (c : ℕ) (hc : 0 < c)
    (recs : List PhspRec) :
    (∀ v, (build_histogram_chunked ex ey ez c recs).counts v =
        histW ex ey ez (recs.map (fun r => ((r.initX, r.initY, r.initZ), (1 : ℚ)))) v) ∧
    (build_histogram_chunked ex ey ez c recs).total_read = recs.length := by
  obtain ⟨h1, h2⟩ := phspChunks_foldl ex ey ez (chunkList c recs)
    { counts := fun _ => 0, total_read := 0 }
  rw [chunkList_join c hc recs] at h1 h2
  constructor
  · intro v
    have := h1 v
    simp only [build_histogram_chunked]
    rw [this]
    simp
  · simp only [build_histogram_chunked]
    rw [h2]
    simp

theorem sum_indicator_ite (l : List α) (p : α → Prop) [DecidablePred p] (f : α → ℚ) :
    (l.map (fun x => if p x then f x else 0)).sum +
      (l.map (fun x => if p x then 0 else f x)).sum = (l.map f).sum := by
  induction l with
  | nil => simp
  | cons a t ih =>
    simp only [List.map_cons, List.sum_cons]
    rw [← ih]
    split_ifs <;> ring

theorem sum_indicator_count (l : List α) (p : α → Prop) [DecidablePred p] :
    (l.map (fun x => if p x then 0 else (1 : ℚ))).sum =
      ((l.filter (fun x => decide (¬ p x))).length : ℚ) := by
  induction l with
  | nil => simp
  | cons a t ih =>
    by_cases h : p a <;> simp [List.filter_cons, h, ih] <;> ring

theorem sum_map_one (l : List α) : (l.map (fun _ => (1 : ℚ))).sum = (l.length : ℚ) := by
  induction l with
  | nil => simp
  | cons a t ih => simp [ih]; ring

/-- Claim **C4.** For any input file, the sum of `sum_w` over all voxels plus the
tallied outside-grid weight equals the total weight read from the file
(exactly, in the rational model of the float arithmetic).  Both the dose
pass (`build_dose_histogram_chunked`, weight = energy; the code's
`energy_outside = total_energy_all - np.sum(sum_w)` coincides with the
direct outside-grid tally) and the Cherenkov counts pass
(`build_histogram_chunked`, weight = 1 per photon) satisfy it. -/
theorem energy_balance_in_plus_out (ex ey ez : List ℚ) (useXyz : Bool) (c : ℕ)
    (hc : 0 < c) (recs : List DoseRec) (recsP : List PhspRec) :
    (sumVoxels ex ey ez (build_dose_histogram_chunked ex ey ez c useXyz recs).sum_w +
        (recs.map (fun r =>
          if (binIndex3 ex ey ez (dosePos useXyz r)).isSome then 0 else r.energy)).sum =
      (recs.map (fun r => r.energy)).sum) ∧
    ((build_dose_histogram_chunked ex ey ez c useXyz recs).energy_outside =
      (recs.map (fun r =>
        if (binIndex3 ex ey ez (dosePos useXyz r)).isSome then 0 else r.energy)).sum) ∧
    (sumVoxels ex ey ez (build_histogram_chunked ex ey ez c recsP).counts +
        ((recsP.filter (fun r =>
          decide (¬ (binIndex3 ex ey ez (r.initX, r.initY, r.initZ)).isSome = true))).length : ℚ) =
      ((build_histogram_chunked ex ey ez c recsP).total_read : ℚ)) := by
  have hin : sumVoxels ex ey ez (build_dose_histogram_chunked ex ey ez c useXyz recs).sum_w =
      (recs.map (fun r =>
        if (binIndex3 ex ey ez (dosePos useXyz r)).isSome then r.energy else 0)).sum := by
    unfold sumVoxels
    rw [Finset.sum_congr rfl
      (fun v _ => (build_dose_histogram_chunked_eq ex ey ez useXyz c hc recs).1 v)]
    rw [show (∑ v ∈ gridFinset ex ey ez, histW ex ey ez (dosePW1 useXyz recs) v) =
      sumVoxels ex ey ez (histW ex ey ez (dosePW1 useXyz recs)) from rfl]
    rw [sumVoxels_histW]
    simp [dosePW1, List.map_map, Function.comp_def]
  have hbal : (recs.map (fun r =>
        if (binIndex3 ex ey ez (dosePos useXyz r)).isSome then r.energy else 0)).sum +
      (recs.map (fun r =>
        if (binIndex3 ex ey ez (dosePos useXyz r)).isSome then 0 else r.energy)).sum =
      (recs.map (fun r => r.energy)).sum :=
    sum_indicator_ite recs _ _
  refine ⟨by rw [hin]; exact hbal, ?_, ?_⟩
  · rw [build_dose_total_energy ex ey ez useXyz c hc recs]
    have hing : (build_dose_histogram_chunked ex ey ez c useXyz recs).energy_in_grid =
        sumVoxels ex ey ez (build_dose_histogram_chunked ex ey ez c useXyz recs).sum_w := rfl
    rw [hing, hin, ← hbal]
    ring
  · have hcounts : sumVoxels ex ey ez (build_histogram_chunked ex ey ez c recsP).counts =
        (recsP.map (fun r =>
          if (binIndex3 ex ey ez (r.initX, r.initY, r.initZ)).isSome then (1 : ℚ) else 0)).sum := by
      unfold sumVoxels
      rw [Finset.sum_congr rfl
        (fun v _ => (build_histogram_chunked_eq ex ey ez c hc recsP).1 v)]
      rw [show (∑ v ∈ gridFinset ex ey ez,
          histW ex ey ez (recsP.map (fun r => ((r.initX, r.initY, r.initZ), (1 : ℚ)))) v) =
        sumVoxels ex ey ez
          (histW ex ey ez (recsP.map (fun r => ((r.initX, r.initY, r.initZ), (1 : ℚ))))) from rfl]
      rw [sumVoxels_histW]
      simp [List.map_map, Function.comp_def]
    have hone := sum_indicator_ite recsP
      (fun r => (binIndex3 ex ey ez (r.initX, r.initY, r.initZ)).isSome = true)
      (fun _ => (1 : ℚ))
    have hcnt := sum_indicator_count recsP
      (fun r => (binIndex3 ex ey ez (r.initX, r.initY, r.initZ)).isSome = true)
    rw [hcounts, (build_histogram_chunked_eq ex ey ez c hc recsP).2, ← hcnt, hone,
      sum_map_one]

/-- Witness for C4 at a concrete input: a one-voxel grid over
`[0,1]³`, one dose record inside with energy `3`, one outside with energy
`5`, and one photon inside, one outside, with chunk size `1`. -/
theorem energy_balance_in_plus_out_witness :
    (0 : ℕ) < 1 ∧
    (sumVoxels [0, 1] [0, 1] [0, 1]
        (build_dose_histogram_chunked [0, 1] [0, 1] [0, 1] 1 true
          [⟨1/2, 1/2, 1/2, 0, 0, 0, 3, 0, 11⟩, ⟨7, 7, 7, 0, 0, 0, 5, 1, 11⟩]).sum_w +
      ([(⟨1/2, 1/2, 1/2, 0, 0, 0, 3, 0, 11⟩ : DoseRec), ⟨7, 7, 7, 0, 0, 0, 5, 1, 11⟩].map
        (fun r => if (binIndex3 [0, 1] [0, 1] [0, 1] (dosePos true r)).isSome
          then 0 else r.energy)).sum =
      ([(⟨1/2, 1/2, 1/2, 0, 0, 0, 3, 0, 11⟩ : DoseRec), ⟨7, 7, 7, 0, 0, 0, 5, 1, 11⟩].map
        (fun r => r.energy)).sum) := by
  refine ⟨by decide, ?_⟩
  exact (energy_balance_in_plus_out [0, 1] [0, 1] [0, 1] true 1 (by decide)
    [⟨1/2, 1/2, 1/2, 0, 0, 0, 3, 0, 11⟩, ⟨7, 7, 7, 0, 0, 0, 5, 1, 11⟩]
    [⟨1/2, 1/2, 1/2, 0⟩, ⟨9, 9, 9, 1⟩]).1

/-- Claim **C5.** Chunk size is a pure performance parameter: any two positive
chunk sizes give identical `sum_w` / `sum_w2` arrays (dose pass) and
identical `counts` (Cherenkov pass) — exact equality in the rational model
of the float arithmetic. -/
theorem chunk_size_invariance (ex ey ez : List ℚ) (useXyz : Bool)
    (recs : List DoseRec) (recsP : List PhspRec) (c1 c2 : ℕ)
    (h1 : 0 < c1) (h2 : 0 < c2) :
    (build_dose_histogram_chunked ex ey ez c1 useXyz recs).sum_w =
      (build_dose_histogram_chunked ex ey ez c2 useXyz recs).sum_w ∧
    (build_dose_histogram_chunked ex ey ez c1 useXyz recs).sum_w2 =
      (build_dose_histogram_chunked ex ey ez c2 useXyz recs).sum_w2 ∧
    (build_histogram_chunked ex ey ez c1 recsP).counts =
      (build_histogram_chunked ex ey ez c2 recsP).counts := by
  refine ⟨funext fun v => ?_, funext fun v => ?_, funext fun v => ?_⟩
  · rw [(build_dose_histogram_chunked_eq ex ey ez useXyz c1 h1 recs).1 v,
      (build_dose_histogram_chunked_eq ex ey ez useXyz c2 h2 recs).1 v]
  · rw [(build_dose_histogram_chunked_eq ex ey ez useXyz c1 h1 recs).2.1 v,
      (build_dose_histogram_chunked_eq ex ey ez useXyz c2 h2 recs).2.1 v]
  · rw [(build_histogram_chunked_eq ex ey ez c1 h1 recsP).1 v,
      (build_histogram_chunked_eq ex ey ez c2 h2 recsP).1 v]

/-- Witness for C5: chunk size 1 versus "the whole file in one chunk"
(size 3) on a three-record file. -/
theorem chunk_size_invariance_witness :
    (0 : ℕ) < 1 ∧ (0 : ℕ) < 3 ∧
    (build_dose_histogram_chunked [0, 1] [0, 1] [0, 1] 1 true
        [⟨1/2, 1/2, 1/2, 0, 0, 0, 3, 0, 11⟩, ⟨7, 7, 7, 0, 0, 0, 5, 1, 11⟩,
         ⟨1/4, 1/4, 1/4, 0, 0, 0, 2, 1, 22⟩]).sum_w =
      (build_dose_histogram_chunked [0, 1] [0, 1] [0, 1] 3 true
        [⟨1/2, 1/2, 1/2, 0, 0, 0, 3, 0, 11⟩, ⟨7, 7, 7, 0, 0, 0, 5, 1, 11⟩,
         ⟨1/4, 1/4, 1/4, 0, 0, 0, 2, 1, 22⟩]).sum_w := by
  refine ⟨by decide, by decide, ?_⟩
  exact (chunk_size_invariance [0, 1] [0, 1] [0, 1] true
    [⟨1/2, 1/2, 1/2, 0, 0, 0, 3, 0, 11⟩, ⟨7, 7, 7, 0, 0, 0, 5, 1, 11⟩,
     ⟨1/4, 1/4, 1/4, 0, 0, 0, 2, 1, 22⟩] [] 1 3 (by decide) (by decide)).1

/-- Source: `sum_w2` of the accumulator is nonnegative in every voxel (each record
contributes `energy**2 ≥ 0`), so the `np.maximum(sum_w2, 0.0)` clamp of the
fast path is the identity on accumulated states. -/
theorem build_dose_sum_w2_nonneg (ex ey ez : List ℚ) (useXyz : Bool) (c : ℕ)
    (hc : 0 < c) (recs : List DoseRec) (v : Vox) :
    0 ≤ (build_dose_histogram_chunked ex ey ez c useXyz recs).sum_w2 v := by
  rw [(build_dose_histogram_chunked_eq ex ey ez useXyz c hc recs).2.1 v]
  apply histW_nonneg
  intro pw hpw
  simp only [dosePW2, List.mem_map] at hpw
  obtain ⟨r, _, rfl⟩ := hpw
  exact mul_self_nonneg r.energy

/-- Source: `counts` of the Cherenkov accumulator is nonnegative in every voxel. -/
theorem build_counts_nonneg (ex ey ez : List ℚ) (c : ℕ) (hc : 0 < c)
    (recs : List PhspRec) (v : Vox) :
    0 ≤ (build_histogram_chunked ex ey ez c recs).counts v := by
  rw [(build_histogram_chunked_eq ex ey ez c hc recs).1 v]
  apply histW_nonneg
  intro pw hpw
  simp only [List.mem_map] at hpw
  obtain ⟨r, _, rfl⟩ := hpw
  exact zero_le_one

/-- Claim **C1.** On any accumulated state and any positive primaries count `n`,
the fast path returns `K = sum_w / n` and `sigma = sqrt(sum_w2) / n`
per voxel (the `np.maximum(·, 0.0)` clamp in the code is the identity
because an accumulated `sum_w2` is a sum of squares); likewise the
Cherenkov fast path returns `K = counts / n` and `sigma = sqrt(counts) / n`. -/
theorem fast_mode_kernel_and_sigma (ex ey ez : List ℚ) (useXyz : Bool) (c : ℕ)
    (hc : 0 < c) (recs : List DoseRec) (recsP : List PhspRec) (n : ℕ) (hn : 0 < n)
    (K : Vox → ℚ) (sigma : Vox → ℝ)
    (hK : compute_kernel_fast
      (build_dose_histogram_chunked ex ey ez c useXyz recs).sum_w
      (build_dose_histogram_chunked ex ey ez c useXyz recs).sum_w2 n K sigma)
    (Kc : Vox → ℚ) (sigmac : Vox → ℝ)
    (hKc : compute_kernel_and_uncertainty
      (build_histogram_chunked ex ey ez c recsP).counts n Kc sigmac) :
    ((∀ v, K v = (build_dose_histogram_chunked ex ey ez c useXyz recs).sum_w v / (n : ℚ)) ∧
     (∀ v, sigma v =
        Real.sqrt (((build_dose_histogram_chunked ex ey ez c useXyz recs).sum_w2 v : ℚ) : ℝ) /
          (n : ℝ))) ∧
    ((∀ v, Kc v = (build_histogram_chunked ex ey ez c recsP).counts v / (n : ℚ)) ∧
     (∀ v, sigmac v =
        Real.sqrt (((build_histogram_chunked ex ey ez c recsP).counts v : ℚ) : ℝ) / (n : ℝ))) := by
  obtain ⟨hK1, hK2⟩ := hK
  obtain ⟨hKc1, hKc2⟩ := hKc
  refine ⟨⟨hK1, fun v => ?_⟩, ⟨hKc1, fun v => ?_⟩⟩
  · rw [hK2 v, max_eq_left (build_dose_sum_w2_nonneg ex ey ez useXyz c hc recs v)]
  · rw [hKc2 v, max_eq_left (build_counts_nonneg ex ey ez c hc recsP v)]

/-- Witness for C1 at a concrete input (one record, one photon, one-voxel
grid, `n = 2`, the `(K, sigma)` pair instantiated with exactly what the
code computes): the clamp under the square root disappears. -/
theorem fast_mode_kernel_and_sigma_witness :
    (0 : ℕ) < 1 ∧ (0 : ℕ) < 2 ∧
    (∀ v, (fun u : Vox =>
        Real.sqrt (((max ((build_dose_histogram_chunked [0, 1] [0, 1] [0, 1] 1 true
          [⟨1/2, 1/2, 1/2, 0, 0, 0, 3, 0, 11⟩]).sum_w2 u) 0 : ℚ) : ℝ)) / ((2 : ℕ) : ℝ)) v =
      Real.sqrt (((build_dose_histogram_chunked [0, 1] [0, 1] [0, 1] 1 true
        [⟨1/2, 1/2, 1/2, 0, 0, 0, 3, 0, 11⟩]).sum_w2 v : ℚ) : ℝ) / ((2 : ℕ) : ℝ)) := by
  refine ⟨by decide, by decide, ?_⟩
  exact (fast_mode_kernel_and_sigma [0, 1] [0, 1] [0, 1] true 1 (by decide)
    [⟨1/2, 1/2, 1/2, 0, 0, 0, 3, 0, 11⟩] [⟨1/2, 1/2, 1/2, 0⟩] 2 (by decide)
    (fun v => (build_dose_histogram_chunked [0, 1] [0, 1] [0, 1] 1 true
      [⟨1/2, 1/2, 1/2, 0, 0, 0, 3, 0, 11⟩]).sum_w v / ((2 : ℕ) : ℚ))
    (fun v => Real.sqrt (((max ((build_dose_histogram_chunked [0, 1] [0, 1] [0, 1] 1 true
      [⟨1/2, 1/2, 1/2, 0, 0, 0, 3, 0, 11⟩]).sum_w2 v) 0 : ℚ) : ℝ)) / ((2 : ℕ) : ℝ))
    ⟨fun _ => rfl, fun _ => rfl⟩
    (fun v => (build_histogram_chunked [0, 1] [0, 1] [0, 1] 1
      [⟨1/2, 1/2, 1/2, 0⟩]).counts v / ((2 : ℕ) : ℚ))
    (fun v => Real.sqrt (((max ((build_histogram_chunked [0, 1] [0, 1] [0, 1] 1
      [⟨1/2, 1/2, 1/2, 0⟩]).counts v) 0 : ℚ) : ℝ)) / ((2 : ℕ) : ℝ))
    ⟨fun _ => rfl, fun _ => rfl⟩).1.2

/-! ## Supporting lemmas: voxel edge arrays -/

theorem linspace_length (a b : ℚ) (n : ℕ) : (linspace a b n).length = n + 1 := by
  simp [linspace]

theorem linspace_head (a b : ℚ) (n : ℕ) : (linspace a b n).head? = some a := by
  rw [linspace, List.range_succ_eq_map, List.map_cons]
  simp

theorem linspace_getLast (a b : ℚ) (n : ℕ) (hn : n ≠ 0) :
    (linspace a b n).getLast? = some b := by
  rw [linspace, List.range_succ, List.map_append, List.map_cons, List.map_nil]
  rw [List.getLast?_concat]
  have hq : ((n : ℚ)) ≠ 0 := Nat.cast_ne_zero.mpr hn
  congr 1
  field_simp

theorem linspace_chain (a b : ℚ) (n : ℕ) (hn : n ≠ 0) (hab : a < b) :
    List.Chain' (· < ·) (linspace a b n) := by
  rw [linspace, List.chain'_map, List.chain'_range_succ]
  intro m hm
  have hq : (0 : ℚ) < (n : ℚ) := by
    exact_mod_cast Nat.pos_of_ne_zero hn
  apply add_lt_add_left
  apply div_lt_div_of_pos_right ?_ hq
  apply mul_lt_mul_of_pos_left ?_ (by linarith)
  push_cast
  linarith

/-- The nominal voxel size is always positive (clamped to `[0.3, 0.8]`). -/
theorem npClip_pos (q : ℚ) : 0 < npClip q (3 / 10) (8 / 10) := by
  unfold npClip
  have h1 : (0 : ℚ) < max q (3 / 10) := lt_max_of_lt_right (by norm_num)
  have h2 : (0 : ℚ) < 8 / 10 := by norm_num
  exact lt_min h1 h2

/-- Source: `axisBins` is always at least `1`. -/
theorem axisBins_pos (extent dv : ℚ) : 1 ≤ axisBins extent dv := by
  unfold axisBins
  have h : (1 : ℤ) ≤ max 1 (roundHalfEven (extent / dv)) := le_max_left 1 _
  omega

/-- A degenerate axis (`extent = 0`) gets exactly one bin. -/
theorem axisBins_degenerate (dv : ℚ) (hdv : 0 < dv) : axisBins 0 dv = 1 := by
  unfold axisBins
  have h0 : (0 : ℚ) / dv = 0 := zero_div dv
  rw [h0]
  have : roundHalfEven 0 = 0 := by
    unfold roundHalfEven
    norm_num
  rw [this]
  rfl

/-- The properties of one axis of `get_voxel_edges`: `bins + 1` edges, the
first and last edge equal to the supplied bounds exactly, strictly
increasing as soon as the axis is non-degenerate, and exactly one bin when
the axis is degenerate. -/
theorem axis_edges_spec (lo hi dv : ℚ) (hdv : 0 < dv) (hle : lo ≤ hi) :
    (linspace lo hi (axisBins (hi - lo) dv)).length = axisBins (hi - lo) dv + 1 ∧
    (linspace lo hi (axisBins (hi - lo) dv)).head? = some lo ∧
    (linspace lo hi (axisBins (hi - lo) dv)).getLast? = some hi ∧
    (lo < hi → List.Chain' (· < ·) (linspace lo hi (axisBins (hi - lo) dv))) ∧
    (lo = hi → axisBins (hi - lo) dv = 1) := by
  have hn : axisBins (hi - lo) dv ≠ 0 := by
    have := axisBins_pos (hi - lo) dv
    omega
  refine ⟨linspace_length _ _ _, linspace_head _ _ _, linspace_getLast _ _ _ hn,
    fun hlt => linspace_chain _ _ _ hn hlt, fun heq => ?_⟩
  rw [show hi - lo = 0 by rw [heq]; ring]
  exact axisBins_degenerate dv hdv


/-- Claim **C3, counterexample.** The claim asserts strict monotonicity of every
edge array for all bounds with `min ≤ max`; but a degenerate axis
(`min = max`, allowed by `min ≤ max`) yields the two-element edge array
`[min, min]`, which is not strictly increasing.  Concretely, with all six
bounds zero the x-edge array of `get_voxel_edges` fails `Chain' (<)`. -/
theorem voxel_edges_degenerate_not_strict :
    b0.x_min ≤ b0.x_max ∧
    ¬ List.Chain' (· < ·) ((get_voxel_edges b0).1.1) := by
  constructor
  · norm_num [b0]
  · have h : (get_voxel_edges b0).1.1 = [0, 0] := by
      norm_num [b0, get_voxel_edges, npClip, axisBins, roundHalfEven, linspace,
        List.range_succ]
    rw [h]
    simp

/-- Claim **C3, amended.** For bounds with `min ≤ max` per axis, each edge array
has length `bins + 1`, begins exactly at the lower bound and ends exactly
at the upper bound, is strictly increasing whenever the axis is
non-degenerate (`min < max`), and a degenerate axis (`extent = 0`) yields
exactly one bin (whose two edges coincide). -/
theorem voxel_edges_spec_amended (b : Bounds) (hx : b.x_min ≤ b.x_max)
    (hy : b.y_min ≤ b.y_max) (hz : b.z_min ≤ b.z_max) :
    ((get_voxel_edges b).1.1.length =
        axisBins (b.x_max - b.x_min) (get_voxel_edges b).2 + 1 ∧
      (get_voxel_edges b).1.1.head? = some b.x_min ∧
      (get_voxel_edges b).1.1.getLast? = some b.x_max ∧
      (b.x_min < b.x_max → List.Chain' (· < ·) (get_voxel_edges b).1.1) ∧
      (b.x_min = b.x_max → axisBins (b.x_max - b.x_min) (get_voxel_edges b).2 = 1)) ∧
    ((get_voxel_edges b).1.2.1.length =
        axisBins (b.y_max - b.y_min) (get_voxel_edges b).2 + 1 ∧
      (get_voxel_edges b).1.2.1.head? = some b.y_min ∧
      (get_voxel_edges b).1.2.1.getLast? = some b.y_max ∧
      (b.y_min < b.y_max → List.Chain' (· < ·) (get_voxel_edges b).1.2.1) ∧
      (b.y_min = b.y_max → axisBins (b.y_max - b.y_min) (get_voxel_edges b).2 = 1)) ∧
    ((get_voxel_edges b).1.2.2.length =
        axisBins (b.z_max - b.z_min) (get_voxel_edges b).2 + 1 ∧
      (get_voxel_edges b).1.2.2.head? = some b.z_min ∧
      (get_voxel_edges b).1.2.2.getLast? = some b.z_max ∧
      (b.z_min < b.z_max → List.Chain' (· < ·) (get_voxel_edges b).1.2.2) ∧
      (b.z_min = b.z_max → axisBins (b.z_max - b.z_min) (get_voxel_edges b).2 = 1)) := by
  have hdv : 0 < (get_voxel_edges b).2 := npClip_pos _
  exact ⟨axis_edges_spec b.x_min b.x_max _ hdv hx,
    axis_edges_spec b.y_min b.y_max _ hdv hy,
    axis_edges_spec b.z_min b.z_max _ hdv hz⟩

/-- Witness for the amended C3 on the 10 × 10 × 30 cm water volume. -/
theorem voxel_edges_spec_amended_witness :
    (0 : ℚ) ≤ 10 ∧ (0 : ℚ) ≤ 30 ∧
    (get_voxel_edges ⟨0, 10, 0, 10, 0, 30⟩).1.1.head? = some 0 ∧
    (get_voxel_edges ⟨0, 10, 0, 10, 0, 30⟩).1.2.2.getLast? = some 30 := by
  refine ⟨by norm_num, by norm_num, ?_, ?_⟩
  · exact (voxel_edges_spec_amended ⟨0, 10, 0, 10, 0, 30⟩ (by norm_num) (by norm_num)
      (by norm_num)).1.2.1
  · exact (voxel_edges_spec_amended ⟨0, 10, 0, 10, 0, 30⟩ (by norm_num) (by norm_num)
      (by norm_num)).2.2.2.2.1

/-- Claim **C6, counterexample.** The decoder can fail even when the byte length
is an exact multiple of the record width: with a 60-byte file (one record)
and a sidecar `run_meta` declaring `total_photons = 2`, `get_n_photons`
raises although `60 % 60 == 0`. -/
theorem get_n_photons_fails_on_multiple :
    60 % 60 = 0 ∧
    get_n_photons 60 none none (some 2) =
      Except.error "run_meta total_photons mismatch" := by
  constructor
  · rfl
  · rfl

/-- Claim **C6, amended.** In the absence of sidecar metadata (no header fields,
no `run_meta total_photons`), the particle-stream decoder fails if and
only if the file byte length is not an exact multiple of 60, and otherwise
reports `file_size / 60` records; the dose-side size check fails if and
only if the length is not an exact multiple of 36, and otherwise reports
`file_size / 36` records. -/
theorem record_length_validation (fileSize : ℕ) :
    ((∃ n, get_n_photons fileSize none none none = Except.ok n) ↔ fileSize % 60 = 0) ∧
    (fileSize % 60 = 0 →
      get_n_photons fileSize none none none = Except.ok (fileSize / 60)) ∧
    ((∃ n, scan_dose_size_check fileSize = Except.ok n) ↔ fileSize % 36 = 0) ∧
    (fileSize % 36 = 0 → scan_dose_size_check fileSize = Except.ok (fileSize / 36)) := by
  refine ⟨⟨fun h => ?_, fun h => ?_⟩, fun h => ?_, ⟨fun h => ?_, fun h => ?_⟩, fun h => ?_⟩
  · obtain ⟨n, hn⟩ := h
    by_contra hmod
    simp only [get_n_photons, if_neg, hmod, ne_eq, not_false_eq_true, if_true] at hn
    exact Except.noConfusion hn
  · refine ⟨fileSize / 60, ?_⟩
    simp only [get_n_photons, h, ne_eq, not_true_eq_false, if_false]
    rfl
  · simp only [get_n_photons, h, ne_eq, not_true_eq_false, if_false]
    rfl
  · obtain ⟨n, hn⟩ := h
    by_contra hmod
    simp only [scan_dose_size_check, hmod, ne_eq, not_false_eq_true, if_true] at hn
    exact Except.noConfusion hn
  · exact ⟨fileSize / 36, by simp [scan_dose_size_check, h]⟩
  · simp [scan_dose_size_check, h]

/-- Witness for the amended C6 at concrete file sizes `120` and `72`. -/
theorem record_length_validation_witness :
    120 % 60 = 0 ∧ 72 % 36 = 0 ∧
    get_n_photons 120 none none none = Except.ok 2 ∧
    scan_dose_size_check 72 = Except.ok 2 := by
  refine ⟨rfl, rfl, ?_, ?_⟩
  · exact (record_length_validation 120).2.1 rfl
  · exact (record_length_validation 72).2.2.2 rfl

/-! ## Supporting lemmas: the event-level pass -/

/-- Records of the current event only accumulate in the buffer. -/
theorem evStep_same_eid_run (ex ey ez : List ℚ) (useXyz : Bool) (l : List DoseRec)
    (e : ℕ) (hl : ∀ r ∈ l, r.eventId = e) (b : List DoseRec) (W : WelfordState) :
    l.foldl (evStep ex ey ez useXyz) ⟨some e, b, W⟩ = ⟨some e, b ++ l, W⟩ := by
  induction l generalizing b with
  | nil => simp
  | cons r t ih =>
    have hr : r.eventId = e := hl r (List.mem_cons_self r t)
    rw [List.foldl_cons]
    have hstep : evStep ex ey ez useXyz ⟨some e, b, W⟩ r = ⟨some e, b ++ [r], W⟩ := by
      simp [evStep, hr]
    rw [hstep, ih (fun x hx => hl x (List.mem_cons_of_mem r hx)) (b ++ [r])]
    simp

/-- Starting fresh, a constant-identifier group just fills the buffer. -/
theorem evStep_first_group (ex ey ez : List ℚ) (useXyz : Bool) (g : List DoseRec)
    (hg : g ≠ []) (hconst : ∀ r ∈ g, r.eventId = groupEid g) (W : WelfordState) :
    g.foldl (evStep ex ey ez useXyz) ⟨none, [], W⟩ = ⟨some (groupEid g), g, W⟩ := by
  match g with
  | [] => exact absurd rfl hg
  | r :: t =>
    rw [List.foldl_cons]
    have hstep : evStep ex ey ez useXyz ⟨none, [], W⟩ r = ⟨some r.eventId, [r], W⟩ := by
      simp [evStep]
    rw [hstep]
    have he : r.eventId = groupEid (r :: t) := rfl
    rw [he, evStep_same_eid_run ex ey ez useXyz t (groupEid (r :: t))
      (fun x hx => hconst x (List.mem_cons_of_mem r hx)) [r] W]
    simp

/-- On an identifier change, the pending buffer is flushed and the new
group fills a fresh buffer. -/
theorem evStep_next_group (ex ey ez : List ℚ) (useXyz : Bool) (g : List DoseRec)
    (hg : g ≠ []) (hconst : ∀ r ∈ g, r.eventId = groupEid g)
    (e0 : ℕ) (hne : groupEid g ≠ e0) (b : List DoseRec) (W : WelfordState) :
    g.foldl (evStep ex ey ez useXyz) ⟨some e0, b, W⟩ =
      ⟨some (groupEid g), g, flushEvent ex ey ez useXyz W b⟩ := by
  match g with
  | [] => exact absurd rfl hg
  | r :: t =>
    rw [List.foldl_cons]
    have he : r.eventId = groupEid (r :: t) := rfl
    have hstep : evStep ex ey ez useXyz ⟨some e0, b, W⟩ r =
        ⟨some r.eventId, [r], flushEvent ex ey ez useXyz W b⟩ := by
      have : r.eventId ≠ e0 := by rw [he]; exact hne
      simp [evStep, this]
    rw [hstep, he, evStep_same_eid_run ex ey ez useXyz t (groupEid (r :: t))
      (fun x hx => hconst x (List.mem_cons_of_mem r hx)) [r] _]
    simp

/-- The per-record loop over the remaining groups, starting with a full
buffer of the previous group: all previous groups get flushed in order,
the last group stays pending. -/
theorem evStep_groups (ex ey ez : List ℚ) (useXyz : Bool) (gs : List (List DoseRec))
    (g0 : List DoseRec) (W : WelfordState)
    (hne : ∀ g ∈ g0 :: gs, g ≠ [])
    (hconst : ∀ g ∈ g0 :: gs, ∀ r ∈ g, r.eventId = groupEid g)
    (hchain : List.Chain' (· ≠ ·) ((g0 :: gs).map groupEid)) :
    gs.flatten.foldl (evStep ex ey ez useXyz) ⟨some (groupEid g0), g0, W⟩ =
      ⟨some (groupEid ((g0 :: gs).getLast (List.cons_ne_nil g0 gs))),
        (g0 :: gs).getLast (List.cons_ne_nil g0 gs),
        ((g0 :: gs).dropLast.map (eventHist ex ey ez useXyz)).foldl welfordStep W⟩ := by
  induction gs generalizing g0 W with
  | nil => simp
  | cons g gs' ih =>
    rw [List.flatten_cons, List.foldl_append]
    have hgne : g ≠ [] := hne g (by simp)
    have hgconst : ∀ r ∈ g, r.eventId = groupEid g := hconst g (by simp)
    have hch : (¬ groupEid g0 = groupEid g) ∧
        List.Chain' (fun a b => ¬ a = b) (groupEid g :: List.map groupEid gs') := by
      simpa using hchain
    have hgne0 : groupEid g ≠ groupEid g0 := fun h => hch.1 h.symm
    rw [evStep_next_group ex ey ez useXyz g hgne hgconst (groupEid g0) hgne0 g0 W]
    have hflush : flushEvent ex ey ez useXyz W g0 =
        welfordStep W (eventHist ex ey ez useXyz g0) := by
      simp [flushEvent, hne g0 (by simp)]
    rw [hflush]
    rw [ih g (welfordStep W (eventHist ex ey ez useXyz g0))
      (fun x hx => hne x (List.mem_cons_of_mem g0 hx))
      (fun x hx => hconst x (List.mem_cons_of_mem g0 hx))
      (by simpa using hch.2)]
    have hlast : (g :: gs').getLast (List.cons_ne_nil g gs') =
        (g0 :: g :: gs').getLast (List.cons_ne_nil g0 (g :: gs')) := by
      rw [List.getLast_cons (List.cons_ne_nil g gs')]
    have hdrop : (g0 :: g :: gs').dropLast = g0 :: (g :: gs').dropLast := rfl
    rw [hdrop, List.map_cons, List.foldl_cons, hlast]

/-- The chunked per-record loop of the event-level pass equals the
unchunked per-record loop, for any positive chunk size: the buffer and the
Welford aggregate thread through chunk boundaries unchanged. -/
theorem build_event_level_uncertainty_eq_unchunked (ex ey ez : List ℚ) (useXyz : Bool)
    (c : ℕ) (hc : 0 < c) (recs : List DoseRec) :
    build_event_level_uncertainty ex ey ez c useXyz recs =
      evFinalize ex ey ez useXyz
        (recs.foldl (evStep ex ey ez useXyz) ⟨none, [], welfordInit⟩) := by
  unfold build_event_level_uncertainty
  congr 1
  rw [← List.foldl_flatten, chunkList_join c hc recs]

/-! ## Supporting lemmas: the Welford aggregate -/

theorem welford_foldl_n (hs : List (Vox → ℚ)) (W : WelfordState) :
    (hs.foldl welfordStep W).n = W.n + hs.length := by
  induction hs generalizing W with
  | nil => simp
  | cons H t ih =>
    rw [List.foldl_cons, ih]
    simp [welfordStep]
    omega

/-- Source: `M2` stays nonnegative under Welford updates: each update adds
`delta² · n/(n+1) ≥ 0`. -/
theorem welford_foldl_M2_nonneg (hs : List (Vox → ℚ)) (W : WelfordState)
    (h : ∀ v, 0 ≤ W.M2 v) : ∀ v, 0 ≤ (hs.foldl welfordStep W).M2 v := by
  induction hs generalizing W with
  | nil => exact h
  | cons H t ih =>
    rw [List.foldl_cons]
    refine ih (welfordStep W H) (fun v => ?_)
    show 0 ≤ W.M2 v + (H v - W.mean v) *
      (H v - (W.mean v + (H v - W.mean v) / ((W.n + 1 : ℕ) : ℚ)))
    have hn1 : ((W.n + 1 : ℕ) : ℚ) ≠ 0 := by
      push_cast
      positivity
    have hkey : H v - (W.mean v + (H v - W.mean v) / ((W.n + 1 : ℕ) : ℚ)) =
        (H v - W.mean v) * (W.n : ℚ) / ((W.n + 1 : ℕ) : ℚ) := by
      field_simp
      ring
    rw [hkey]
    have h2 : 0 ≤ (H v - W.mean v) * ((H v - W.mean v) * (W.n : ℚ) / ((W.n + 1 : ℕ) : ℚ)) := by
      have hre : (H v - W.mean v) * ((H v - W.mean v) * (W.n : ℚ) / ((W.n + 1 : ℕ) : ℚ)) =
          ((H v - W.mean v) * (H v - W.mean v)) * ((W.n : ℚ) / ((W.n + 1 : ℕ) : ℚ)) := by
        ring
      rw [hre]
      apply mul_nonneg (mul_self_nonneg _)
      positivity
    linarith [h v, h2]

/-- Closed form of the Welford fold from the fresh aggregate: the sample
count is the number of events, `mean · n` is the sum of the event
histograms, and `M2 = Σ H² - mean² · n` per voxel. -/
theorem welford_foldl_closed (hs : List (Vox → ℚ)) (v : Vox) :
    (hs.foldl welfordStep welfordInit).n = hs.length ∧
    ((hs.foldl welfordStep welfordInit).mean v) * (hs.length : ℚ) =
      (hs.map (fun H => H v)).sum ∧
    (hs.foldl welfordStep welfordInit).M2 v =
      (hs.map (fun H => H v * H v)).sum -
        ((hs.foldl welfordStep welfordInit).mean v) *
          ((hs.foldl welfordStep welfordInit).mean v) * (hs.length : ℚ) := by
  induction hs using List.reverseRecOn with
  | nil => simp [welfordInit]
  | append_singleton t H ih =>
    obtain ⟨ihn, ihmean, ihM2⟩ := ih
    rw [List.foldl_append, List.foldl_cons, List.foldl_nil]
    have hn1 : (((t.foldl welfordStep welfordInit).n + 1 : ℕ) : ℚ) ≠ 0 := by
      push_cast
      positivity
    have hlen1 : ((t.length : ℚ) + 1) ≠ 0 := by positivity
    have hmean' : (welfordStep (t.foldl welfordStep welfordInit) H).mean v =
        ((t.foldl welfordStep welfordInit).mean v * (t.length : ℚ) + H v) /
          ((t.length : ℚ) + 1) := by
      show (t.foldl welfordStep welfordInit).mean v +
          (H v - (t.foldl welfordStep welfordInit).mean v) /
            (((t.foldl welfordStep welfordInit).n + 1 : ℕ) : ℚ) = _
      rw [ihn]
      push_cast
      field_simp
      ring
    refine ⟨?_, ?_, ?_⟩
    · show (t.foldl welfordStep welfordInit).n + 1 = (t ++ [H]).length
      rw [ihn]
      simp
    · rw [hmean', List.length_append, List.map_append, List.sum_append]
      simp only [List.length_cons, List.length_nil, List.map_cons, List.map_nil,
        List.sum_cons, List.sum_nil, add_zero]
      push_cast
      rw [div_mul_eq_mul_div, div_eq_iff hlen1]
      linear_combination ((t.length : ℚ) + 1) * ihmean
    · rw [List.map_append, List.sum_append, List.length_append]
      simp only [List.map_cons, List.map_nil, List.sum_cons, List.sum_nil, add_zero,
        List.length_cons, List.length_nil]
      show (t.foldl welfordStep welfordInit).M2 v +
          (H v - (t.foldl welfordStep welfordInit).mean v) *
            (H v - (welfordStep (t.foldl welfordStep welfordInit) H).mean v) = _
      rw [hmean', ihM2]
      push_cast
      field_simp
      ring

/-- The streaming event-level pass over a grouped stream equals the
Welford fold over the per-event histograms, and counts one sample per
event. -/
theorem event_stream_fold_eq (ex ey ez : List ℚ) (useXyz : Bool) (c : ℕ)
    (hc : 0 < c) (groups : List (List DoseRec)) (hne : groups ≠ [])
    (hgne : ∀ g ∈ groups, g ≠ [])
    (hconst : ∀ g ∈ groups, ∀ r ∈ g, r.eventId = groupEid g)
    (hdist : (groups.map groupEid).Pairwise (· ≠ ·)) :
    build_event_level_uncertainty ex ey ez c useXyz groups.flatten =
      (groups.map (eventHist ex ey ez useXyz)).foldl welfordStep welfordInit ∧
    (build_event_level_uncertainty ex ey ez c useXyz groups.flatten).n = groups.length := by
  obtain ⟨g0, gs, rfl⟩ := List.exists_cons_of_ne_nil hne
  have hmain : build_event_level_uncertainty ex ey ez c useXyz (g0 :: gs).flatten =
      ((g0 :: gs).map (eventHist ex ey ez useXyz)).foldl welfordStep welfordInit := by
    rw [build_event_level_uncertainty_eq_unchunked ex ey ez useXyz c hc]
    rw [List.flatten_cons, List.foldl_append]
    rw [evStep_first_group ex ey ez useXyz g0 (hgne g0 (by simp)) (hconst g0 (by simp))
      welfordInit]
    rw [evStep_groups ex ey ez useXyz gs g0 welfordInit hgne hconst hdist.chain']
    have hlastne : (g0 :: gs).getLast (List.cons_ne_nil g0 gs) ≠ [] :=
      hgne _ (List.getLast_mem _)
    show flushEvent ex ey ez useXyz _ _ = _
    rw [flushEvent, if_neg hlastne]
    rw [show welfordStep
        (((g0 :: gs).dropLast.map (eventHist ex ey ez useXyz)).foldl welfordStep welfordInit)
        (eventHist ex ey ez useXyz ((g0 :: gs).getLast (List.cons_ne_nil g0 gs))) =
      (((g0 :: gs).dropLast.map (eventHist ex ey ez useXyz)) ++
        [eventHist ex ey ez useXyz ((g0 :: gs).getLast (List.cons_ne_nil g0 gs))]).foldl
          welfordStep welfordInit by rw [List.foldl_append]; rfl]
    rw [show List.map (eventHist ex ey ez useXyz) (g0 :: gs).dropLast ++
        [eventHist ex ey ez useXyz ((g0 :: gs).getLast (List.cons_ne_nil g0 gs))] =
      List.map (eventHist ex ey ez useXyz)
        ((g0 :: gs).dropLast ++ [(g0 :: gs).getLast (List.cons_ne_nil g0 gs)]) by
      rw [List.map_append]; rfl]
    rw [List.dropLast_append_getLast (List.cons_ne_nil g0 gs)]
  refine ⟨hmain, ?_⟩
  rw [hmain, welford_foldl_n]
  simp [welfordInit]

/-- The `M2` component of the event-level pass is nonnegative on a grouped
stream. -/
theorem event_stream_M2_nonneg (ex ey ez : List ℚ) (useXyz : Bool) (c : ℕ)
    (hc : 0 < c) (groups : List (List DoseRec)) (hne : groups ≠ [])
    (hgne : ∀ g ∈ groups, g ≠ [])
    (hconst : ∀ g ∈ groups, ∀ r ∈ g, r.eventId = groupEid g)
    (hdist : (groups.map groupEid).Pairwise (· ≠ ·)) (u : Vox) :
    0 ≤ (build_event_level_uncertainty ex ey ez c useXyz groups.flatten).M2 u := by
  rw [(event_stream_fold_eq ex ey ez useXyz c hc groups hne hgne hconst hdist).1]
  exact welford_foldl_M2_nonneg _ welfordInit (fun _ => le_refl 0) u

/-- Claim **C2.** For a nonempty stream grouped by event identifier (each group
nonempty, constant identifier inside a group, pairwise-distinct
identifiers across groups), the event-level pass folds exactly the voxel
histogram of each completed event into the per-voxel Welford aggregate by
`n += 1; delta = H - mean; mean += delta / n; M2 += delta * (H - mean)`,
flushing at every identifier boundary and once more at end of file; the
resulting sample count is the number of events, and the returned
uncertainty satisfies `sigma = sqrt(variance) / sqrt(n)` with
`variance = M2 / (n - 1)` when `n > 1` and `0` otherwise (the code's
`n > 0` guard and clamp to `0` are vacuous here). -/
theorem event_level_welford_fold (ex ey ez : List ℚ) (useXyz : Bool) (c : ℕ)
    (hc : 0 < c) (groups : List (List DoseRec)) (hne : groups ≠ [])
    (hgne : ∀ g ∈ groups, g ≠ [])
    (hconst : ∀ g ∈ groups, ∀ r ∈ g, r.eventId = groupEid g)
    (hdist : (groups.map groupEid).Pairwise (· ≠ ·)) :
    build_event_level_uncertainty ex ey ez c useXyz groups.flatten =
      (groups.map (eventHist ex ey ez useXyz)).foldl welfordStep welfordInit ∧
    (build_event_level_uncertainty ex ey ez c useXyz groups.flatten).n = groups.length ∧
    (∀ sigma : Vox → ℝ,
      eventSigma (build_event_level_uncertainty ex ey ez c useXyz groups.flatten) sigma →
      ∀ v, sigma v =
        Real.sqrt ((eventVariance
            (build_event_level_uncertainty ex ey ez c useXyz groups.flatten) v : ℚ) : ℝ) /
          Real.sqrt
            (((build_event_level_uncertainty ex ey ez c useXyz groups.flatten).n : ℕ) : ℝ)) := by
  obtain ⟨hmain, hn⟩ := event_stream_fold_eq ex ey ez useXyz c hc groups hne hgne hconst hdist
  refine ⟨hmain, hn, fun sigma hsigma v => ?_⟩
  have hpos : 0 < (build_event_level_uncertainty ex ey ez c useXyz groups.flatten).n := by
    rw [hn]
    exact List.length_pos.mpr hne
  have hvar : 0 ≤ eventVariance (build_event_level_uncertainty ex ey ez c useXyz
      groups.flatten) v := by
    unfold eventVariance
    split_ifs with h1
    · apply div_nonneg
        (event_stream_M2_nonneg ex ey ez useXyz c hc groups hne hgne hconst hdist v)
      have : (1 : ℚ) < ((build_event_level_uncertainty ex ey ez c useXyz
          groups.flatten).n : ℚ) := by exact_mod_cast h1
      linarith
    · exact le_refl 0
  rw [hsigma v, if_pos hpos, max_eq_left hvar]

/-- Witness for C2: two one-record events on a one-voxel grid, chunk size
`1`; the pass counts exactly two events. -/
theorem event_level_welford_fold_witness :
    (0 : ℕ) < 1 ∧
    (build_event_level_uncertainty [0, 1] [0, 1] [0, 1] 1 true
      ([[⟨1/2, 1/2, 1/2, 0, 0, 0, 3, 0, 11⟩], [⟨1/4, 1/4, 1/4, 0, 0, 0, 2, 1, 11⟩]] :
        List (List DoseRec)).flatten).n = 2 := by
  refine ⟨by decide, ?_⟩
  exact (event_level_welford_fold [0, 1] [0, 1] [0, 1] true 1 (by decide)
    [[⟨1/2, 1/2, 1/2, 0, 0, 0, 3, 0, 11⟩], [⟨1/4, 1/4, 1/4, 0, 0, 0, 2, 1, 11⟩]]
    (by simp) (by simp) (by simp [groupEid]) (by simp [groupEid])).2.1

/-- Claim **C10.** The event-level pass flushes only on an event-identifier
change or at end of file, never at a chunk boundary: the loop state
(current identifier, buffered event, Welford aggregate) threads through
chunk boundaries unchanged, so any two positive chunk sizes produce an
identical Welford state `(n, mean, M2)` and identical returned `sigma`;
in particular an event whose records span a chunk boundary is accumulated
as one event. -/
theorem event_pass_chunk_invariance (ex ey ez : List ℚ) (useXyz : Bool)
    (recs : List DoseRec) (c1 c2 : ℕ) (h1 : 0 < c1) (h2 : 0 < c2) :
    build_event_level_uncertainty ex ey ez c1 useXyz recs =
      build_event_level_uncertainty ex ey ez c2 useXyz recs ∧
    (∀ s1 s2 : Vox → ℝ,
      eventSigma (build_event_level_uncertainty ex ey ez c1 useXyz recs) s1 →
      eventSigma (build_event_level_uncertainty ex ey ez c2 useXyz recs) s2 → s1 = s2) := by
  have he : build_event_level_uncertainty ex ey ez c1 useXyz recs =
      build_event_level_uncertainty ex ey ez c2 useXyz recs := by
    rw [build_event_level_uncertainty_eq_unchunked ex ey ez useXyz c1 h1,
      build_event_level_uncertainty_eq_unchunked ex ey ez useXyz c2 h2]
  refine ⟨he, fun s1 s2 hs1 hs2 => funext fun v => ?_⟩
  rw [hs1 v, hs2 v, he]

/-- Witness for C10: chunk size 1 (the first event spans a chunk boundary)
versus the whole file in one chunk of size 3. -/
theorem event_pass_chunk_invariance_witness :
    (0 : ℕ) < 1 ∧ (0 : ℕ) < 3 ∧
    build_event_level_uncertainty [0, 1] [0, 1] [0, 1] 1 true
      [⟨1/2, 1/2, 1/2, 0, 0, 0, 3, 0, 11⟩, ⟨1/4, 1/4, 1/4, 0, 0, 0, 2, 0, 11⟩,
       ⟨1/3, 1/3, 1/3, 0, 0, 0, 1, 1, 11⟩] =
    build_event_level_uncertainty [0, 1] [0, 1] [0, 1] 3 true
      [⟨1/2, 1/2, 1/2, 0, 0, 0, 3, 0, 11⟩, ⟨1/4, 1/4, 1/4, 0, 0, 0, 2, 0, 11⟩,
       ⟨1/3, 1/3, 1/3, 0, 0, 0, 1, 1, 11⟩] := by
  refine ⟨by decide, by decide, ?_⟩
  exact (event_pass_chunk_invariance [0, 1] [0, 1] [0, 1] true
    [⟨1/2, 1/2, 1/2, 0, 0, 0, 3, 0, 11⟩, ⟨1/4, 1/4, 1/4, 0, 0, 0, 2, 0, 11⟩,
     ⟨1/3, 1/3, 1/3, 0, 0, 0, 1, 1, 11⟩] 1 3 (by decide) (by decide)).1

/-! ## Supporting lemmas: fast-mode versus event-level uncertainty -/

theorem flatten_map_singleton (l : List α) : (l.map (fun a => [a])).flatten = l := by
  induction l with
  | nil => simp
  | cons a t ih => simp [ih]

/-- A stream in which every event contributes exactly one record is the
flattening of its singleton groups. -/
theorem singleton_groups_fold (ex ey ez : List ℚ) (useXyz : Bool) (c : ℕ)
    (hc : 0 < c) (recs : List DoseRec) (hne : recs ≠ [])
    (hdist : (recs.map DoseRec.eventId).Pairwise (· ≠ ·)) :
    build_event_level_uncertainty ex ey ez c useXyz recs =
      (recs.map (fun r => eventHist ex ey ez useXyz [r])).foldl welfordStep welfordInit ∧
    (build_event_level_uncertainty ex ey ez c useXyz recs).n = recs.length := by
  have hflat : (recs.map (fun r => [r])).flatten = recs := flatten_map_singleton recs
  have h := event_stream_fold_eq ex ey ez useXyz c hc (recs.map (fun r => [r]))
    (by simpa using hne)
    (by intro g hg; simp only [List.mem_map] at hg; obtain ⟨r, _, rfl⟩ := hg; simp)
    (by intro g hg; simp only [List.mem_map] at hg; obtain ⟨r, _, rfl⟩ := hg
        intro x hx; simp only [List.mem_singleton] at hx; subst hx; rfl)
    (by rw [List.map_map]; simpa [Function.comp_def, groupEid] using hdist)
  rw [hflat, List.map_map] at h
  exact ⟨h.1, by rw [h.2, List.length_map]⟩

/-- If a predicate selects at most one record of a list, the square of the
selected-weight sum is the selected-squared-weight sum. -/
theorem occupancy_one_sq (l : List DoseRec) (p : DoseRec → Prop) [DecidablePred p]
    (f : DoseRec → ℚ) (hocc : l.countP (fun r => decide (p r)) ≤ 1) :
    (l.map (fun r => if p r then f r else 0)).sum *
      (l.map (fun r => if p r then f r else 0)).sum =
    (l.map (fun r => if p r then f r * f r else 0)).sum := by
  induction l with
  | nil => simp
  | cons r t ih =>
    by_cases hp : p r
    · have hcnt : t.countP (fun r => decide (p r)) = 0 := by
        rw [List.countP_cons, if_pos (by simpa using hp)] at hocc
        omega
      have hzero : ∀ g : DoseRec → ℚ,
          (t.map (fun x => if p x then g x else 0)).sum = 0 := by
        intro g
        apply List.sum_eq_zero
        intro q hq
        simp only [List.mem_map] at hq
        obtain ⟨x, hx, rfl⟩ := hq
        rw [if_neg (by simpa using List.countP_eq_zero.mp hcnt x hx)]
      simp only [List.map_cons, List.sum_cons, if_pos hp, hzero]
      ring
    · have hocc' : t.countP (fun r => decide (p r)) ≤ 1 := by
        rw [List.countP_cons, if_neg (by simpa using hp)] at hocc
        omega
      simp only [List.map_cons, List.sum_cons, if_neg hp, zero_add]
      exact ih hocc'

/-- The histogram of a one-record event, per voxel. -/
theorem eventHist_singleton (ex ey ez : List ℚ) (useXyz : Bool) (r : DoseRec) (v : Vox) :
    eventHist ex ey ez useXyz [r] v =
      if binIndex3 ex ey ez (dosePos useXyz r) = some v then r.energy else 0 := by
  simp [eventHist, histW]

/-- Claim **C7, amended.** When every event contributes exactly one record
(pairwise-distinct event identifiers), the declared primaries count equals
the event count `n = recs.length ≥ 2`, and no voxel receives more than one
in-grid record, the fast-mode per-voxel `sigma` (`sqrt(sum_w2)/N`) equals
the event-level per-voxel `sigma` (`sqrt(M2/(n-1))/sqrt(n)`); without the
extra occupancy and `n ≥ 2` conditions the two differ in general (see the
counterexample, where two one-record events deposit in the same voxel). -/
theorem fast_vs_event_sigma_amended (ex ey ez : List ℚ) (useXyz : Bool) (c : ℕ)
    (hc : 0 < c) (recs : List DoseRec) (hne : recs ≠ [])
    (hdist : (recs.map DoseRec.eventId).Pairwise (· ≠ ·))
    (hn2 : 2 ≤ recs.length)
    (hocc : ∀ v, recs.countP
      (fun r => decide (binIndex3 ex ey ez (dosePos useXyz r) = some v)) ≤ 1)
    (K : Vox → ℚ) (sigmaF sigmaE : Vox → ℝ)
    (hfast : compute_kernel_fast
      (build_dose_histogram_chunked ex ey ez c useXyz recs).sum_w
      (build_dose_histogram_chunked ex ey ez c useXyz recs).sum_w2 recs.length K sigmaF)
    (hev : eventSigma (build_event_level_uncertainty ex ey ez c useXyz recs) sigmaE) :
    sigmaF = sigmaE := by
  obtain ⟨hW, hWn⟩ := singleton_groups_fold ex ey ez useXyz c hc recs hne hdist
  funext v
  obtain ⟨hcn, hmean, hM2⟩ :=
    welford_foldl_closed (recs.map (fun r => eventHist ex ey ez useXyz [r])) v
  rw [List.length_map] at hcn hmean hM2
  -- identify the two quadratic sums
  have hQ : ((recs.map (fun r => eventHist ex ey ez useXyz [r])).map
      (fun H => H v * H v)).sum =
      (recs.map (fun r =>
        if binIndex3 ex ey ez (dosePos useXyz r) = some v
        then r.energy * r.energy else 0)).sum := by
    rw [List.map_map]
    apply congrArg
    apply List.map_congr_left
    intro r _
    simp only [Function.comp_apply, eventHist_singleton]
    split_ifs <;> ring
  have hS : ((recs.map (fun r => eventHist ex ey ez useXyz [r])).map
      (fun H => H v)).sum =
      (recs.map (fun r =>
        if binIndex3 ex ey ez (dosePos useXyz r) = some v then r.energy else 0)).sum := by
    rw [List.map_map]
    apply congrArg
    apply List.map_congr_left
    intro r _
    simp only [Function.comp_apply, eventHist_singleton]
  have hw2 : (build_dose_histogram_chunked ex ey ez c useXyz recs).sum_w2 v =
      (recs.map (fun r =>
        if binIndex3 ex ey ez (dosePos useXyz r) = some v
        then r.energy * r.energy else 0)).sum := by
    rw [(build_dose_histogram_chunked_eq ex ey ez useXyz c hc recs).2.1 v]
    unfold histW dosePW2
    rw [List.map_map]
    apply congrArg
    apply List.map_congr_left
    intro r _
    rfl
  have hQS : (recs.map (fun r =>
        if binIndex3 ex ey ez (dosePos useXyz r) = some v then r.energy else 0)).sum *
      (recs.map (fun r =>
        if binIndex3 ex ey ez (dosePos useXyz r) = some v then r.energy else 0)).sum =
      (recs.map (fun r =>
        if binIndex3 ex ey ez (dosePos useXyz r) = some v
        then r.energy * r.energy else 0)).sum :=
    occupancy_one_sq recs _ _ (hocc v)
  have hw2nonneg : 0 ≤ (build_dose_histogram_chunked ex ey ez c useXyz recs).sum_w2 v :=
    build_dose_sum_w2_nonneg ex ey ez useXyz c hc recs v
  -- rational part: the event-level variance is `sum_w2 / n`
  have hnq : ((recs.length : ℚ)) ≠ 0 := by
    have : (0 : ℚ) < (recs.length : ℚ) := by
      exact_mod_cast Nat.lt_of_lt_of_le (by norm_num) hn2
    linarith
  have hnq1 : ((recs.length : ℚ)) - 1 ≠ 0 := by
    have : (2 : ℚ) ≤ (recs.length : ℚ) := by exact_mod_cast hn2
    intro habs
    linarith
  have hmsq : (((recs.map (fun r => eventHist ex ey ez useXyz [r])).foldl
        welfordStep welfordInit).mean v) *
      (((recs.map (fun r => eventHist ex ey ez useXyz [r])).foldl
        welfordStep welfordInit).mean v) * (recs.length : ℚ) * (recs.length : ℚ) =
      ((recs.map (fun r => eventHist ex ey ez useXyz [r])).map (fun H => H v * H v)).sum := by
    have h1 : (((recs.map (fun r => eventHist ex ey ez useXyz [r])).foldl
          welfordStep welfordInit).mean v * (recs.length : ℚ)) *
        (((recs.map (fun r => eventHist ex ey ez useXyz [r])).foldl
          welfordStep welfordInit).mean v * (recs.length : ℚ)) =
        ((recs.map (fun r => eventHist ex ey ez useXyz [r])).map (fun H => H v)).sum *
        ((recs.map (fun r => eventHist ex ey ez useXyz [r])).map (fun H => H v)).sum := by
      rw [hmean]
    calc (((recs.map (fun r => eventHist ex ey ez useXyz [r])).foldl
          welfordStep welfordInit).mean v) *
        (((recs.map (fun r => eventHist ex ey ez useXyz [r])).foldl
          welfordStep welfordInit).mean v) * (recs.length : ℚ) * (recs.length : ℚ) =
        (((recs.map (fun r => eventHist ex ey ez useXyz [r])).foldl
          welfordStep welfordInit).mean v * (recs.length : ℚ)) *
        (((recs.map (fun r => eventHist ex ey ez useXyz [r])).foldl
          welfordStep welfordInit).mean v * (recs.length : ℚ)) := by ring
      _ = ((recs.map (fun r => eventHist ex ey ez useXyz [r])).map (fun H => H v)).sum *
          ((recs.map (fun r => eventHist ex ey ez useXyz [r])).map (fun H => H v)).sum := h1
      _ = ((recs.map (fun r => eventHist ex ey ez useXyz [r])).map
          (fun H => H v * H v)).sum := by rw [hS, hQ]; exact hQS
  have hvar : eventVariance (build_event_level_uncertainty ex ey ez c useXyz recs) v =
      (build_dose_histogram_chunked ex ey ez c useXyz recs).sum_w2 v / (recs.length : ℚ) := by
    unfold eventVariance
    rw [hWn, if_pos (by omega : 1 < recs.length), hW, hM2, hw2, ← hQ]
    rw [div_eq_div_iff hnq1 hnq]
    linear_combination (-1 : ℚ) * hmsq
  -- real part: `sqrt(q/n)/sqrt(n) = sqrt(q)/n`
  rw [hfast.2 v, hev v, if_pos (by rw [hWn]; omega), hvar, hWn]
  rw [max_eq_left hw2nonneg,
    max_eq_left (div_nonneg hw2nonneg (by positivity : (0 : ℚ) ≤ (recs.length : ℚ)))]
  have hcast : (((build_dose_histogram_chunked ex ey ez c useXyz recs).sum_w2 v /
      (recs.length : ℚ) : ℚ) : ℝ) =
      (((build_dose_histogram_chunked ex ey ez c useXyz recs).sum_w2 v : ℚ) : ℝ) /
        ((recs.length : ℕ) : ℝ) := by
    push_cast
    ring
  rw [hcast, Real.sqrt_div (by exact_mod_cast hw2nonneg) _]
  rw [div_div, Real.mul_self_sqrt (by positivity : (0 : ℝ) ≤ ((recs.length : ℕ) : ℝ))]

/-- Claim **C7, counterexample.** Two events of one record each (unit energy,
the same voxel of a one-voxel grid), `N_primaries = 2 =` event count: the
fast-mode sigma is `sqrt(2)/2` while the event-level sigma is `0`
(`M2 = 0` since both event histograms coincide), so the two do **not**
coincide merely because every event contributes exactly one record. -/
theorem fast_vs_event_sigma_counterexample :
    (([⟨1/2, 1/2, 1/2, 0, 0, 0, 1, 0, 11⟩, ⟨1/2, 1/2, 1/2, 0, 0, 0, 1, 1, 11⟩] :
        List DoseRec).map DoseRec.eventId).Pairwise (· ≠ ·) ∧
    Real.sqrt ((max ((build_dose_histogram_chunked [0, 1] [0, 1] [0, 1] 1 true
        [⟨1/2, 1/2, 1/2, 0, 0, 0, 1, 0, 11⟩,
         ⟨1/2, 1/2, 1/2, 0, 0, 0, 1, 1, 11⟩]).sum_w2 (0, 0, 0)) 0 : ℚ) : ℝ) /
      ((2 : ℕ) : ℝ) ≠
    Real.sqrt ((max (eventVariance (build_event_level_uncertainty [0, 1] [0, 1] [0, 1] 1 true
        [⟨1/2, 1/2, 1/2, 0, 0, 0, 1, 0, 11⟩,
         ⟨1/2, 1/2, 1/2, 0, 0, 0, 1, 1, 11⟩]) (0, 0, 0)) 0 : ℚ) : ℝ) /
      Real.sqrt (((build_event_level_uncertainty [0, 1] [0, 1] [0, 1] 1 true
        [⟨1/2, 1/2, 1/2, 0, 0, 0, 1, 0, 11⟩,
         ⟨1/2, 1/2, 1/2, 0, 0, 0, 1, 1, 11⟩]).n : ℕ) : ℝ) := by
  have hb : binIndex3 [0, 1] [0, 1] [0, 1] ((1 : ℚ)/2, (1 : ℚ)/2, (1 : ℚ)/2) =
      some (0, 0, 0) := by
    norm_num [binIndex3, binIndex, List.countP_cons, List.countP_nil, List.getLast]
  have hpos : dosePos true (⟨1/2, 1/2, 1/2, 0, 0, 0, 1, 0, 11⟩ : DoseRec) =
      ((1 : ℚ)/2, (1 : ℚ)/2, (1 : ℚ)/2) := rfl
  have hpos2 : dosePos true (⟨1/2, 1/2, 1/2, 0, 0, 0, 1, 1, 11⟩ : DoseRec) =
      ((1 : ℚ)/2, (1 : ℚ)/2, (1 : ℚ)/2) := rfl
  have hsw2 : (build_dose_histogram_chunked [0, 1] [0, 1] [0, 1] 1 true
      [⟨1/2, 1/2, 1/2, 0, 0, 0, 1, 0, 11⟩,
       ⟨1/2, 1/2, 1/2, 0, 0, 0, 1, 1, 11⟩]).sum_w2 (0, 0, 0) = 2 := by
    rw [(build_dose_histogram_chunked_eq [0, 1] [0, 1] [0, 1] true 1 (by norm_num)
      [⟨1/2, 1/2, 1/2, 0, 0, 0, 1, 0, 11⟩, ⟨1/2, 1/2, 1/2, 0, 0, 0, 1, 1, 11⟩]).2.1]
    simp only [dosePW2, histW, List.map_cons, List.map_nil, hpos, hpos2, hb,
      List.sum_cons, List.sum_nil]
    norm_num
  obtain ⟨hW, hWn⟩ := singleton_groups_fold [0, 1] [0, 1] [0, 1] true 1 (by norm_num)
    [⟨1/2, 1/2, 1/2, 0, 0, 0, 1, 0, 11⟩, ⟨1/2, 1/2, 1/2, 0, 0, 0, 1, 1, 11⟩]
    (by simp) (by simp [List.pairwise_cons])
  obtain ⟨hcn, hmean, hM2⟩ := welford_foldl_closed
    (([⟨1/2, 1/2, 1/2, 0, 0, 0, 1, 0, 11⟩, ⟨1/2, 1/2, 1/2, 0, 0, 0, 1, 1, 11⟩] :
      List DoseRec).map (fun r => eventHist [0, 1] [0, 1] [0, 1] true [r])) (0, 0, 0)
  have hHsum : (((([⟨1/2, 1/2, 1/2, 0, 0, 0, 1, 0, 11⟩,
        ⟨1/2, 1/2, 1/2, 0, 0, 0, 1, 1, 11⟩] : List DoseRec).map
        (fun r => eventHist [0, 1] [0, 1] [0, 1] true [r])).map
        (fun H => H (0, 0, 0))).sum) = 2 := by
    simp only [List.map_cons, List.map_nil, List.sum_cons, List.sum_nil,
      eventHist_singleton, hpos, hpos2, hb, if_pos]
    norm_num
  have hHsqsum : (((([⟨1/2, 1/2, 1/2, 0, 0, 0, 1, 0, 11⟩,
        ⟨1/2, 1/2, 1/2, 0, 0, 0, 1, 1, 11⟩] : List DoseRec).map
        (fun r => eventHist [0, 1] [0, 1] [0, 1] true [r])).map
        (fun H => H (0, 0, 0) * H (0, 0, 0))).sum) = 2 := by
    simp only [List.map_cons, List.map_nil, List.sum_cons, List.sum_nil,
      eventHist_singleton, hpos, hpos2, hb, if_pos]
    norm_num
  rw [hHsum] at hmean
  rw [hHsqsum] at hM2
  simp only [List.length_map, List.length_cons, List.length_nil] at hmean
  have hmean1 : ((([⟨1/2, 1/2, 1/2, 0, 0, 0, 1, 0, 11⟩,
      ⟨1/2, 1/2, 1/2, 0, 0, 0, 1, 1, 11⟩] : List DoseRec).map
      (fun r => eventHist [0, 1] [0, 1] [0, 1] true [r])).foldl
        welfordStep welfordInit).mean (0, 0, 0) = 1 := by
    have h2 : ((([⟨1/2, 1/2, 1/2, 0, 0, 0, 1, 0, 11⟩,
        ⟨1/2, 1/2, 1/2, 0, 0, 0, 1, 1, 11⟩] : List DoseRec).map
        (fun r => eventHist [0, 1] [0, 1] [0, 1] true [r])).foldl
          welfordStep welfordInit).mean (0, 0, 0) * ((0 + 1 + 1 : ℕ) : ℚ) = 2 := hmean
    push_cast at h2
    linarith
  have hM20 : ((([⟨1/2, 1/2, 1/2, 0, 0, 0, 1, 0, 11⟩,
      ⟨1/2, 1/2, 1/2, 0, 0, 0, 1, 1, 11⟩] : List DoseRec).map
      (fun r => eventHist [0, 1] [0, 1] [0, 1] true [r])).foldl
        welfordStep welfordInit).M2 (0, 0, 0) = 0 := by
    rw [hM2, hmean1]
    simp only [List.length_map, List.length_cons, List.length_nil]
    norm_num
  have hvar0 : eventVariance (build_event_level_uncertainty [0, 1] [0, 1] [0, 1] 1 true
      [⟨1/2, 1/2, 1/2, 0, 0, 0, 1, 0, 11⟩, ⟨1/2, 1/2, 1/2, 0, 0, 0, 1, 1, 11⟩]) (0, 0, 0) = 0 := by
    unfold eventVariance
    rw [hWn, hW, hM20]
    norm_num
  refine ⟨by simp [List.pairwise_cons], ?_⟩
  rw [hsw2, hvar0]
  have hm2 : (max (2 : ℚ) 0) = 2 := by norm_num
  have hm0 : (max (0 : ℚ) 0) = 0 := by norm_num
  rw [hm2, hm0]
  simp only [Rat.cast_zero, Real.sqrt_zero, zero_div]
  have hlhs : (0 : ℝ) < Real.sqrt ((2 : ℚ) : ℝ) / ((2 : ℕ) : ℝ) := by
    apply div_pos
    · apply Real.sqrt_pos.mpr
      norm_num
    · norm_num
  exact hlhs.ne'

/-- Witness for the amended C7: two one-record events with distinct
voxels (the second record falls outside the grid), `N = n = 2`; the two
uncertainty formulas agree on every voxel. -/
theorem fast_vs_event_sigma_amended_witness :
    2 ≤ ([⟨1/2, 1/2, 1/2, 0, 0, 0, 1, 0, 11⟩, ⟨7, 7, 7, 0, 0, 0, 1, 1, 11⟩] :
      List DoseRec).length ∧
    (fun v : Vox => Real.sqrt ((max ((build_dose_histogram_chunked [0, 1] [0, 1] [0, 1] 1 true
        [⟨1/2, 1/2, 1/2, 0, 0, 0, 1, 0, 11⟩, ⟨7, 7, 7, 0, 0, 0, 1, 1, 11⟩]).sum_w2 v) 0 :
          ℚ) : ℝ) /
      ((([⟨1/2, 1/2, 1/2, 0, 0, 0, 1, 0, 11⟩, ⟨7, 7, 7, 0, 0, 0, 1, 1, 11⟩] :
        List DoseRec).length : ℕ) : ℝ)) =
    (fun v : Vox =>
      if 0 < (build_event_level_uncertainty [0, 1] [0, 1] [0, 1] 1 true
          [⟨1/2, 1/2, 1/2, 0, 0, 0, 1, 0, 11⟩, ⟨7, 7, 7, 0, 0, 0, 1, 1, 11⟩]).n then
        Real.sqrt ((max (eventVariance (build_event_level_uncertainty [0, 1] [0, 1] [0, 1] 1 true
            [⟨1/2, 1/2, 1/2, 0, 0, 0, 1, 0, 11⟩, ⟨7, 7, 7, 0, 0, 0, 1, 1, 11⟩]) v) 0 : ℚ) : ℝ) /
          Real.sqrt (((build_event_level_uncertainty [0, 1] [0, 1] [0, 1] 1 true
            [⟨1/2, 1/2, 1/2, 0, 0, 0, 1, 0, 11⟩, ⟨7, 7, 7, 0, 0, 0, 1, 1, 11⟩]).n : ℕ) : ℝ)
      else 0) := by
  have hbA : binIndex3 [0, 1] [0, 1] [0, 1]
      (dosePos true (⟨1/2, 1/2, 1/2, 0, 0, 0, 1, 0, 11⟩ : DoseRec)) = some (0, 0, 0) := by
    norm_num [binIndex3, binIndex, dosePos, List.countP_cons, List.countP_nil, List.getLast]
  have hbB : binIndex3 [0, 1] [0, 1] [0, 1]
      (dosePos true (⟨7, 7, 7, 0, 0, 0, 1, 1, 11⟩ : DoseRec)) = none := by
    norm_num [binIndex3, binIndex, dosePos, List.getLast]
  refine ⟨by norm_num, ?_⟩
  exact fast_vs_event_sigma_amended [0, 1] [0, 1] [0, 1] true 1 (by norm_num)
    [⟨1/2, 1/2, 1/2, 0, 0, 0, 1, 0, 11⟩, ⟨7, 7, 7, 0, 0, 0, 1, 1, 11⟩]
    (by simp) (by simp [List.pairwise_cons]) (by norm_num)
    (by
      intro v
      simp only [List.countP_cons, List.countP_nil, hbA, hbB]
      split_ifs <;> simp_all)
    (fun v => (build_dose_histogram_chunked [0, 1] [0, 1] [0, 1] 1 true
      [⟨1/2, 1/2, 1/2, 0, 0, 0, 1, 0, 11⟩, ⟨7, 7, 7, 0, 0, 0, 1, 1, 11⟩]).sum_w v /
      ((([⟨1/2, 1/2, 1/2, 0, 0, 0, 1, 0, 11⟩, ⟨7, 7, 7, 0, 0, 0, 1, 1, 11⟩] :
        List DoseRec).length : ℕ) : ℚ))
    _ _ ⟨fun _ => rfl, fun _ => rfl⟩ (fun _ => rfl)

/-! ## Supporting lemmas: the event-index mapper -/

/-- On a strictly sorted list, looking up the insertion index of a member
returns the member: the index is in bounds and the entry there is the
member itself. -/
theorem sorted_lt_getD_countP (l : List ℕ) (hs : List.Sorted (· < ·) l)
    (e : ℕ) (he : e ∈ l) :
    l.countP (fun a => a < e) < l.length ∧
    l.getD (l.countP (fun a => a < e)) 0 = e := by
  induction l with
  | nil => simp at he
  | cons a t ih =>
    rw [List.sorted_cons] at hs
    rcases List.mem_cons.mp he with rfl | het
    · have hcnt : (e :: t).countP (fun x => x < e) = 0 := by
        rw [List.countP_eq_zero]
        intro x hx
        rcases List.mem_cons.mp hx with rfl | hxt
        · simp
        · simp only [decide_eq_true_eq]
          have := hs.1 x hxt
          omega
      rw [hcnt]
      simp
    · have hae : a < e := hs.1 e het
      have hcnt : (a :: t).countP (fun x => x < e) = t.countP (fun x => x < e) + 1 := by
        rw [List.countP_cons]
        simp [hae]
      obtain ⟨ih1, ih2⟩ := ih hs.2 het
      rw [hcnt]
      refine ⟨by simpa using ih1, ?_⟩
      simpa using ih2

/-- Source: `union1d` is strictly sorted. -/
theorem union1d_sorted_lt (xs ys : List ℕ) : List.Sorted (· < ·) (union1d xs ys) :=
  Finset.sort_sorted_lt _

/-- Every identifier of either stream occurs in the union. -/
theorem mem_union1d (xs ys : List ℕ) (e : ℕ) (he : e ∈ xs ++ ys) :
    e ∈ union1d xs ys := by
  rw [union1d, Finset.mem_sort]
  exact List.mem_toFinset.mpr he

theorem countP_lt_range (E e : ℕ) : (List.range E).countP (fun a => a < e) = min e E := by
  induction E with
  | zero => simp
  | succ E ih =>
    rw [List.range_succ, List.countP_append, ih, List.countP_cons]
    simp only [List.countP_nil, decide_eq_true_eq]
    split_ifs <;> omega

/-- Claim **C8.** Mapping an identifier to its position in the sorted union of
distinct identifiers and looking that position up reproduces the
identifier exactly (round trip); and when the identifiers form the dense
set `0..E-1`, the position equals the identifier itself, so the dense fast
path (using the identifier directly as the array index) agrees with the
mapped position. -/
theorem event_index_mapper_roundtrip (xs ys : List ℕ) :
    (∀ e ∈ xs ++ ys,
      searchsorted (union1d xs ys) e < (union1d xs ys).length ∧
      (union1d xs ys).getD (searchsorted (union1d xs ys) e) 0 = e) ∧
    (∀ E : ℕ, (xs ++ ys).toFinset = Finset.range E →
      ∀ e ∈ xs ++ ys, searchsorted (union1d xs ys) e = e) := by
  constructor
  · intro e he
    exact sorted_lt_getD_countP (union1d xs ys) (union1d_sorted_lt xs ys) e
      (mem_union1d xs ys e he)
  · intro E hE e he
    have hid : union1d xs ys = List.range E := by
      rw [union1d, hE, Finset.sort_range]
    have heE : e < E := by
      have : e ∈ (xs ++ ys).toFinset := List.mem_toFinset.mpr he
      rw [hE, Finset.mem_range] at this
      exact this
    rw [hid]
    show (List.range E).countP (fun a => a < e) = e
    rw [countP_lt_range]
    omega

/-- Witness for C8 at a concrete sparse identifier pair of streams. -/
theorem event_index_mapper_roundtrip_witness :
    (7 : ℕ) ∈ [3, 7] ++ [100, 3] ∧
    (union1d [3, 7] [100, 3]).getD (searchsorted (union1d [3, 7] [100, 3]) 7) 0 = 7 := by
  refine ⟨by decide, ?_⟩
  exact ((event_index_mapper_roundtrip [3, 7] [100, 3]).1 7 (by decide)).2

/-! ## Supporting lemmas: bincount -/

theorem foldr_max_le (idxs : List ℕ) (m : ℕ) (h : ∀ i ∈ idxs, i < m) :
    idxs.foldr (fun i acc => max (i + 1) acc) 0 ≤ m := by
  induction idxs with
  | nil => simp
  | cons i t ih =>
    simp only [List.foldr_cons]
    have h1 : i < m := h i (List.mem_cons_self i t)
    have h2 := ih (fun x hx => h x (List.mem_cons_of_mem i hx))
    omega

theorem bincountLen_eq (idxs : List ℕ) (m : ℕ) (h : ∀ i ∈ idxs, i < m) :
    bincountLen idxs m = m := by
  unfold bincountLen
  have := foldr_max_le idxs m h
  omega

theorem getD_range_map (f : ℕ → β) (len i : ℕ) (d : β) (h : i < len) :
    ((List.range len).map f).getD i d = f i := by
  rw [List.getD_eq_getElem?_getD]
  rw [List.getElem?_eq_getElem (by simpa using h)]
  simp

theorem bincountCount_length (idxs : List ℕ) (m : ℕ) :
    (bincountCount idxs m).length = bincountLen idxs m := by
  simp [bincountCount]

theorem bincountW_length (idxs : List ℕ) (ws : List ℚ) (m : ℕ) :
    (bincountW idxs ws m).length = bincountLen idxs m := by
  simp [bincountW]

theorem bincountCount_getD (idxs : List ℕ) (m i : ℕ) (h : i < bincountLen idxs m) :
    (bincountCount idxs m).getD i 0 = idxs.count i := by
  unfold bincountCount
  rw [getD_range_map _ _ _ _ h]

theorem bincountW_getD (idxs : List ℕ) (ws : List ℚ) (m i : ℕ)
    (h : i < bincountLen idxs m) :
    (bincountW idxs ws m).getD i 0 =
      ((idxs.zip ws).map (fun p => if p.1 = i then p.2 else 0)).sum := by
  unfold bincountW
  rw [getD_range_map _ _ _ _ h]

theorem mem_le_foldr_max (l : List ℕ) (i : ℕ) (h : i ∈ l) :
    i ≤ l.foldr max 0 := by
  induction l with
  | nil => simp at h
  | cons a t ih =>
    simp only [List.foldr_cons]
    rcases List.mem_cons.mp h with rfl | hit
    · omega
    · have := ih hit
      omega

theorem sum_filter_map_eq (l : List α) (p : α → Prop) [DecidablePred p] (f : α → ℚ) :
    ((l.filter (fun a => decide (p a))).map f).sum =
      (l.map (fun a => if p a then f a else 0)).sum := by
  induction l with
  | nil => simp
  | cons a t ih =>
    by_cases hp : p a <;> simp [List.filter_cons, hp, ih]


/-- On a strictly sorted list, the insertion index of the `i`-th entry is
`i`. -/
theorem sorted_lt_countP_getD (l : List ℕ) (hs : List.Sorted (· < ·) l)
    (i : ℕ) (hi : i < l.length) :
    l.countP (fun a => a < l.getD i 0) = i := by
  induction l generalizing i with
  | nil => simp at hi
  | cons a t ih =>
    rw [List.sorted_cons] at hs
    match i with
    | 0 =>
      simp only [List.getD_cons_zero]
      rw [List.countP_eq_zero]
      intro x hx
      rcases List.mem_cons.mp hx with rfl | hxt
      · simp
      · simp only [decide_eq_true_eq]
        have := hs.1 x hxt
        omega
    | j + 1 =>
      simp only [List.getD_cons_succ]
      have hj : j < t.length := by simpa using hi
      have hmem : t.getD j 0 ∈ t := by
        rw [List.getD_eq_getElem?_getD, List.getElem?_eq_getElem hj]
        exact List.getElem_mem hj
      have ha : a < t.getD j 0 := hs.1 _ hmem
      rw [List.countP_cons, ih hs.2 j hj]
      have ha' : a < t[j]?.getD 0 := by
        rw [← List.getD_eq_getElem?_getD]
        exact ha
      simp [ha']

/-- For a member of a strictly sorted list: the insertion index equals `i`
iff the member is the `i`-th entry. -/
theorem searchsorted_eq_iff (l : List ℕ) (hs : List.Sorted (· < ·) l)
    (e : ℕ) (he : e ∈ l) (i : ℕ) (hi : i < l.length) :
    searchsorted l e = i ↔ e = l.getD i 0 := by
  constructor
  · intro h
    obtain ⟨_, hget⟩ := sorted_lt_getD_countP l hs e he
    rw [show searchsorted l e = l.countP (fun a => a < e) from rfl] at h
    rw [← h, hget]
  · intro h
    rw [h]
    exact sorted_lt_countP_getD l hs i hi

theorem sum_map_if_congr (l : List α) (p q : α → Prop) [DecidablePred p] [DecidablePred q]
    (f : α → ℚ) (h : ∀ a ∈ l, p a ↔ q a) :
    (l.map (fun a => if p a then f a else 0)).sum =
      (l.map (fun a => if q a then f a else 0)).sum := by
  apply congrArg
  apply List.map_congr_left
  intro a ha
  exact if_congr (h a ha) rfl rfl

/-- Counting a compressed index in the mapped identifier list counts the
corresponding identifier in the original list. -/
theorem count_map_searchsorted (xs ys zs : List ℕ) (hzs : ∀ e ∈ zs, e ∈ xs ++ ys)
    (i : ℕ) (hi : i < (union1d xs ys).length) :
    (zs.map (searchsorted (union1d xs ys))).count i =
      zs.count ((union1d xs ys).getD i 0) := by
  rw [List.count_eq_countP, List.count_eq_countP, List.countP_map]
  apply List.countP_congr
  intro e he
  simp only [Function.comp_apply, beq_iff_eq]
  exact searchsorted_eq_iff (union1d xs ys) (union1d_sorted_lt xs ys) e
    (mem_union1d xs ys e (hzs e he)) i hi

/-- Summing weights at a compressed index sums the weights of the records
with the corresponding identifier. -/
theorem zipsum_searchsorted (xs ys : List ℕ) (l : List α) (eid : α → ℕ) (w : α → ℚ)
    (hzs : ∀ a ∈ l, eid a ∈ xs ++ ys) (i : ℕ) (hi : i < (union1d xs ys).length) :
    (((l.map (fun a => searchsorted (union1d xs ys) (eid a))).zip (l.map w)).map
        (fun p => if p.1 = i then p.2 else 0)).sum =
      ((l.filter (fun a => eid a = (union1d xs ys).getD i 0)).map w).sum := by
  rw [List.zip_map', List.map_map]
  rw [sum_filter_map_eq l (fun a => eid a = (union1d xs ys).getD i 0) w]
  apply congrArg
  apply List.map_congr_left
  intro a ha
  have hiff : searchsorted (union1d xs ys) (eid a) = i ↔
      eid a = (union1d xs ys).getD i 0 :=
    searchsorted_eq_iff (union1d xs ys) (union1d_sorted_lt xs ys) (eid a)
      (mem_union1d xs ys (eid a) (hzs a ha)) i hi
  exact if_congr hiff rfl rfl

/-- Summing weights at an identifier index (dense mode) sums the weights
of the records with that identifier. -/
theorem zipsum_dense (l : List α) (eid : α → ℕ) (w : α → ℚ) (i : ℕ) :
    (((l.map eid).zip (l.map w)).map (fun p => if p.1 = i then p.2 else 0)).sum =
      ((l.filter (fun a => eid a = i)).map w).sum := by
  rw [List.zip_map', List.map_map]
  rw [sum_filter_map_eq l (fun a => eid a = i) w]
  rfl

/-- A list count equals the length of the corresponding filter. -/
theorem count_eq_filter_length_phsp (ph : List PhspRec) (t : ℕ) :
    (ph.map PhspRec.eventId).count t =
      (ph.filter (fun r => r.eventId = t)).length := by
  rw [List.count_eq_countP, List.countP_map, ← List.countP_eq_length_filter]
  apply List.countP_congr
  intro r _
  simp

/-- The three per-event arrays of the sparse branch: common length
`E = |union|`, and entry `i` aggregates exactly the records whose event
identifier is the `i`-th distinct identifier. -/
theorem per_event_sparse (ph : List PhspRec) (ds : List DoseRec)
    (hsp : useSparse ph ds = true) :
    ((perEventArrays ph ds).1.length =
        (union1d (ph.map PhspRec.eventId) (ds.map DoseRec.eventId)).length ∧
      (perEventArrays ph ds).2.1.length =
        (union1d (ph.map PhspRec.eventId) (ds.map DoseRec.eventId)).length ∧
      (perEventArrays ph ds).2.2.length =
        (union1d (ph.map PhspRec.eventId) (ds.map DoseRec.eventId)).length) ∧
    ∀ i, i < (union1d (ph.map PhspRec.eventId) (ds.map DoseRec.eventId)).length →
      (perEventArrays ph ds).1.getD i 0 =
        (ph.filter (fun r => r.eventId =
          (union1d (ph.map PhspRec.eventId) (ds.map DoseRec.eventId)).getD i 0)).length ∧
      (perEventArrays ph ds).2.1.getD i 0 =
        ((ds.filter (fun r => r.eventId =
          (union1d (ph.map PhspRec.eventId) (ds.map DoseRec.eventId)).getD i 0)).map
            DoseRec.energy).sum ∧
      (perEventArrays ph ds).2.2.getD i 0 =
        (((ds.filter (fun r => r.pdg = 11)).filter (fun r => r.eventId =
          (union1d (ph.map PhspRec.eventId) (ds.map DoseRec.eventId)).getD i 0)).map
            DoseRec.energy).sum := by
  have hsorted := union1d_sorted_lt (ph.map PhspRec.eventId) (ds.map DoseRec.eventId)
  have hphb : ∀ j ∈ (ph.map PhspRec.eventId).map
      (searchsorted (union1d (ph.map PhspRec.eventId) (ds.map DoseRec.eventId))), j <
      (union1d (ph.map PhspRec.eventId) (ds.map DoseRec.eventId)).length := by
    intro j hj
    rw [List.mem_map] at hj
    obtain ⟨e, he, rfl⟩ := hj
    exact (sorted_lt_getD_countP _ hsorted e
      (mem_union1d _ _ e (List.mem_append_left _ he))).1
  have hdsb : ∀ j ∈ (ds.map DoseRec.eventId).map
      (searchsorted (union1d (ph.map PhspRec.eventId) (ds.map DoseRec.eventId))), j <
      (union1d (ph.map PhspRec.eventId) (ds.map DoseRec.eventId)).length := by
    intro j hj
    rw [List.mem_map] at hj
    obtain ⟨e, he, rfl⟩ := hj
    exact (sorted_lt_getD_countP _ hsorted e
      (mem_union1d _ _ e (List.mem_append_right _ he))).1
  have helb : ∀ j ∈ (ds.filter (fun r => r.pdg = 11)).map
      (fun r => searchsorted (union1d (ph.map PhspRec.eventId) (ds.map DoseRec.eventId))
        r.eventId), j <
      (union1d (ph.map PhspRec.eventId) (ds.map DoseRec.eventId)).length := by
    intro j hj
    rw [List.mem_map] at hj
    obtain ⟨r, hr, rfl⟩ := hj
    have hmem : r.eventId ∈ ds.map DoseRec.eventId :=
      List.mem_map_of_mem _ (List.mem_of_mem_filter hr)
    exact (sorted_lt_getD_countP _ hsorted r.eventId
      (mem_union1d _ _ r.eventId (List.mem_append_right _ hmem))).1
  have harr : perEventArrays ph ds =
      (bincountCount ((ph.map PhspRec.eventId).map
          (searchsorted (union1d (ph.map PhspRec.eventId) (ds.map DoseRec.eventId))))
          (union1d (ph.map PhspRec.eventId) (ds.map DoseRec.eventId)).length,
        bincountW ((ds.map DoseRec.eventId).map
          (searchsorted (union1d (ph.map PhspRec.eventId) (ds.map DoseRec.eventId))))
          (ds.map DoseRec.energy)
          (union1d (ph.map PhspRec.eventId) (ds.map DoseRec.eventId)).length,
        bincountW ((ds.filter (fun r => r.pdg = 11)).map
          (fun r => searchsorted (union1d (ph.map PhspRec.eventId) (ds.map DoseRec.eventId))
            r.eventId))
          ((ds.filter (fun r => r.pdg = 11)).map DoseRec.energy)
          (union1d (ph.map PhspRec.eventId) (ds.map DoseRec.eventId)).length) := by
    rw [perEventArrays, if_pos hsp]
  constructor
  · refine ⟨?_, ?_, ?_⟩
    · rw [harr]
      show (bincountCount _ _).length = _
      rw [bincountCount_length, bincountLen_eq _ _ hphb]
    · rw [harr]
      show (bincountW _ _ _).length = _
      rw [bincountW_length, bincountLen_eq _ _ hdsb]
    · rw [harr]
      show (bincountW _ _ _).length = _
      rw [bincountW_length, bincountLen_eq _ _ helb]
  · intro i hi
    refine ⟨?_, ?_, ?_⟩
    · rw [harr]
      show (bincountCount _ _).getD i 0 = _
      rw [bincountCount_getD _ _ _ (by rw [bincountLen_eq _ _ hphb]; exact hi)]
      rw [count_map_searchsorted _ _ _ (fun e he => List.mem_append_left _ he) i hi]
      exact count_eq_filter_length_phsp ph _
    · rw [harr]
      show (bincountW _ _ _).getD i 0 = _
      rw [bincountW_getD _ _ _ _ (by rw [bincountLen_eq _ _ hdsb]; exact hi)]
      rw [List.map_map]
      exact zipsum_searchsorted _ _ ds DoseRec.eventId DoseRec.energy
        (fun r _ => List.mem_append_right _ (List.mem_map_of_mem _ (by assumption)))
        i hi
    · rw [harr]
      show (bincountW _ _ _).getD i 0 = _
      rw [bincountW_getD _ _ _ _ (by rw [bincountLen_eq _ _ helb]; exact hi)]
      exact zipsum_searchsorted _ _ (ds.filter (fun r => r.pdg = 11))
        DoseRec.eventId DoseRec.energy
        (fun r hr => List.mem_append_right _
          (List.mem_map_of_mem _ (List.mem_of_mem_filter hr))) i hi

/-- The three per-event arrays of the dense branch: common length
`max_event_id + 1`, and entry `i` aggregates exactly the records with
event identifier `i`. -/
theorem per_event_dense (ph : List PhspRec) (ds : List DoseRec)
    (hsp : useSparse ph ds = false) :
    ((perEventArrays ph ds).1.length = maxEventId ph ds + 1 ∧
      (perEventArrays ph ds).2.1.length = maxEventId ph ds + 1 ∧
      (perEventArrays ph ds).2.2.length = maxEventId ph ds + 1) ∧
    ∀ i, i < maxEventId ph ds + 1 →
      (perEventArrays ph ds).1.getD i 0 =
        (ph.filter (fun r => r.eventId = i)).length ∧
      (perEventArrays ph ds).2.1.getD i 0 =
        ((ds.filter (fun r => r.eventId = i)).map DoseRec.energy).sum ∧
      (perEventArrays ph ds).2.2.getD i 0 =
        (((ds.filter (fun r => r.pdg = 11)).filter (fun r => r.eventId = i)).map
          DoseRec.energy).sum := by
  have hphb : ∀ j ∈ ph.map PhspRec.eventId, j < maxEventId ph ds + 1 := by
    intro j hj
    have h1 := mem_le_foldr_max _ j hj
    have h2 : (ph.map PhspRec.eventId).foldr max 0 ≤ maxEventId ph ds :=
      le_max_left _ _
    omega
  have hdsb : ∀ j ∈ ds.map DoseRec.eventId, j < maxEventId ph ds + 1 := by
    intro j hj
    have h1 := mem_le_foldr_max _ j hj
    have h2 : (ds.map DoseRec.eventId).foldr max 0 ≤ maxEventId ph ds :=
      le_max_right _ _
    omega
  have helb : ∀ j ∈ (ds.filter (fun r => r.pdg = 11)).map DoseRec.eventId,
      j < maxEventId ph ds + 1 := by
    intro j hj
    rw [List.mem_map] at hj
    obtain ⟨r, hr, rfl⟩ := hj
    exact hdsb _ (List.mem_map_of_mem _ (List.mem_of_mem_filter hr))
  have harr : perEventArrays ph ds =
      (bincountCount (ph.map PhspRec.eventId) (maxEventId ph ds + 1),
        bincountW (ds.map DoseRec.eventId) (ds.map DoseRec.energy) (maxEventId ph ds + 1),
        bincountW ((ds.filter (fun r => r.pdg = 11)).map DoseRec.eventId)
          ((ds.filter (fun r => r.pdg = 11)).map DoseRec.energy)
          (maxEventId ph ds + 1)) := by
    rw [perEventArrays, if_neg (by rw [hsp]; simp)]
  constructor
  · refine ⟨?_, ?_, ?_⟩
    · rw [harr]
      show (bincountCount _ _).length = _
      rw [bincountCount_length, bincountLen_eq _ _ hphb]
    · rw [harr]
      show (bincountW _ _ _).length = _
      rw [bincountW_length, bincountLen_eq _ _ hdsb]
    · rw [harr]
      show (bincountW _ _ _).length = _
      rw [bincountW_length, bincountLen_eq _ _ helb]
  · intro i hi
    refine ⟨?_, ?_, ?_⟩
    · rw [harr]
      show (bincountCount _ _).getD i 0 = _
      rw [bincountCount_getD _ _ _ (by rw [bincountLen_eq _ _ hphb]; exact hi)]
      exact count_eq_filter_length_phsp ph i
    · rw [harr]
      show (bincountW _ _ _).getD i 0 = _
      rw [bincountW_getD _ _ _ _ (by rw [bincountLen_eq _ _ hdsb]; exact hi)]
      exact zipsum_dense ds DoseRec.eventId DoseRec.energy i
    · rw [harr]
      show (bincountW _ _ _).getD i 0 = _
      rw [bincountW_getD _ _ _ _ (by rw [bincountLen_eq _ _ helb]; exact hi)]
      exact zipsum_dense (ds.filter (fun r => r.pdg = 11)) DoseRec.eventId
        DoseRec.energy i

/-- Claim **C9.** In both the sparse and the dense branch, the
photon-count-per-event, dose-per-event and electron-dose-per-event arrays
are one-dimensional arrays of identical length — the number of distinct
identifiers of the union in sparse mode, the maximum identifier plus one
in dense mode — and the entries at any common index `i` all aggregate the
records of the same event identifier (`alignedEid`): the `i`-th distinct
identifier in sparse mode, `i` itself in dense mode. -/
theorem per_event_arrays_aligned (ph : List PhspRec) (ds : List DoseRec) :
    ((perEventArrays ph ds).1.length = (perEventArrays ph ds).2.1.length ∧
      (perEventArrays ph ds).2.1.length = (perEventArrays ph ds).2.2.length) ∧
    (useSparse ph ds = true →
      (perEventArrays ph ds).1.length =
        (union1d (ph.map PhspRec.eventId) (ds.map DoseRec.eventId)).length) ∧
    (useSparse ph ds = false →
      (perEventArrays ph ds).1.length = maxEventId ph ds + 1) ∧
    (∀ i, i < (perEventArrays ph ds).1.length →
      (perEventArrays ph ds).1.getD i 0 =
        (ph.filter (fun r => r.eventId = alignedEid ph ds i)).length ∧
      (perEventArrays ph ds).2.1.getD i 0 =
        ((ds.filter (fun r => r.eventId = alignedEid ph ds i)).map DoseRec.energy).sum ∧
      (perEventArrays ph ds).2.2.getD i 0 =
        (((ds.filter (fun r => r.pdg = 11)).filter
          (fun r => r.eventId = alignedEid ph ds i)).map DoseRec.energy).sum) := by
  by_cases hsp : useSparse ph ds = true
  · obtain ⟨⟨l1, l2, l3⟩, hv⟩ := per_event_sparse ph ds hsp
    have halign : ∀ i, alignedEid ph ds i =
        (union1d (ph.map PhspRec.eventId) (ds.map DoseRec.eventId)).getD i 0 := by
      intro i
      simp [alignedEid, hsp]
    refine ⟨⟨by rw [l1, l2], by rw [l2, l3]⟩, fun _ => l1,
      fun hfalse => by rw [hsp] at hfalse; exact absurd hfalse (by simp), ?_⟩
    intro i hi
    rw [l1] at hi
    obtain ⟨v1, v2, v3⟩ := hv i hi
    rw [halign i]
    exact ⟨v1, v2, v3⟩
  · have hsp' : useSparse ph ds = false := by
      rcases Bool.eq_false_or_eq_true (useSparse ph ds) with h | h
      · exact absurd h hsp
      · exact h
    obtain ⟨⟨l1, l2, l3⟩, hv⟩ := per_event_dense ph ds hsp'
    have halign : ∀ i, alignedEid ph ds i = i := by
      intro i
      simp [alignedEid, hsp']
    refine ⟨⟨by rw [l1, l2], by rw [l2, l3]⟩, fun htrue => absurd htrue hsp,
      fun _ => l1, ?_⟩
    intro i hi
    rw [l1] at hi
    obtain ⟨v1, v2, v3⟩ := hv i hi
    rw [halign i]
    exact ⟨v1, v2, v3⟩

/-- Witness for C9 on a concrete dense-mode input (two photons of event 0
and 1, one electron dose record of event 0). -/
theorem per_event_arrays_aligned_witness :
    useSparse [⟨0, 0, 0, 0⟩, ⟨0, 0, 0, 1⟩] [⟨0, 0, 0, 0, 0, 0, 5, 0, 11⟩] = false ∧
    (perEventArrays [⟨0, 0, 0, 0⟩, ⟨0, 0, 0, 1⟩] [⟨0, 0, 0, 0, 0, 0, 5, 0, 11⟩]).1.getD 0 0 =
      (([⟨0, 0, 0, 0⟩, ⟨0, 0, 0, 1⟩] : List PhspRec).filter
        (fun r => r.eventId =
          alignedEid [⟨0, 0, 0, 0⟩, ⟨0, 0, 0, 1⟩] [⟨0, 0, 0, 0, 0, 0, 5, 0, 11⟩] 0)).length := by
  have hsp : useSparse [⟨0, 0, 0, 0⟩, ⟨0, 0, 0, 1⟩] [⟨0, 0, 0, 0, 0, 0, 5, 0, 11⟩] = false := by
    decide
  refine ⟨hsp, ?_⟩
  have h := per_event_arrays_aligned [⟨0, 0, 0, 0⟩, ⟨0, 0, 0, 1⟩] [⟨0, 0, 0, 0, 0, 0, 5, 0, 11⟩]
  have hlen := h.2.2.1 hsp
  have hi : 0 < (perEventArrays [⟨0, 0, 0, 0⟩, ⟨0, 0, 0, 1⟩]
      [⟨0, 0, 0, 0, 0, 0, 5, 0, 11⟩]).1.length := by
    rw [hlen]
    omega
  exact (h.2.2.2 0 hi).1

end Geant4Cherenkov
